import Mathlib

/-!
smart-proxy: the response capture writer and the traffic storage.

A shallow embedding of `capture.go` (package `main`) and of
`storage/traffic_storage.go` (package `storage`).

Conventions of the embedding.

* Go `string` is `String`, `[]byte` is `List UInt8`, `int` is `Int`.
* A pointer field (`*TrafficIngress`, `*[]byte`) is an `Option`; `none` is `nil`.
* A call of `fmt.Fprintf` or `log.Printf` is recorded as the format literal
  together with the operand values, in call order (`Printf`).  The bytes that
  reach the writer are a function of that pair, fixed by package `fmt`.
* A nil dereference stops the function with `Exit.panicked`; what was written
  before stays written.
* A `[]byte` behind a pointer is a `Slice`, which keeps a nil slice apart from
  an empty one: `encoding/json` writes them differently.
* The wrapped `http.ResponseWriter` is a library outside the repository: it is
  a parameter (`ResponseWriter`).  The functions of the storage take the codec
  as a parameter (`JSON`); `goJSON` is `encoding/json` at type `TrafficTrace`,
  written out from the packages it rests on, and is the codec of the round
  trip through `StoreTrace`.
* A Go `string` may hold bytes that are not UTF-8; a `String` cannot.  What is
  proved holds for traces whose strings are valid UTF-8.
* The bolt bucket is the list of its key/value pairs in ascending key order;
  `db.View` and `db.Update` run their closure on it, and `db.Update` keeps the
  old bucket when the closure returns an error.
-/

namespace SmartProxy

/-! ## Go values shared by both files -/

/-- Go `[]byte`. -/
abbrev Bytes := List UInt8

/-- Go `int` is 64 bits wide on the supported platforms: results of `+` wrap. -/
def wrapInt (x : Int) : Int := (x + 2 ^ 63) % 2 ^ 64 - 2 ^ 63

/-- A `time.Time` without monotonic reading: the instant, and the offset of
its location. -/
structure Time where
  /-- seconds since 1970-01-01T00:00:00Z -/
  sec : Int
  /-- nanoseconds within the second, below 10^9 -/
  nsec : Nat
  /-- seconds east of UTC of the location the time is shown in -/
  offset : Int
  deriving DecidableEq, Repr

/-- The zero `time.Time`: January 1, year 1, 00:00:00 UTC. -/
def Time.zero : Time := { sec := -62135596800, nsec := 0, offset := 0 }

/-- `t.UTC()`: the same instant with the location set to UTC. -/
def Time.UTC (t : Time) : Time := { t with offset := 0 }

/-- `t.Before(u)`: the instant `t` is earlier than the instant `u`. -/
def Time.Before (t u : Time) : Prop :=
  t.sec < u.sec ∨ (t.sec = u.sec ∧ t.nsec < u.nsec)

instance (t u : Time) : Decidable (t.Before u) := by
  unfold Time.Before; exact inferInstance

/-- A `time.Duration`: nanoseconds in an int64. -/
abbrev Duration := Int

/-- `t.Sub(u)`: the difference in nanoseconds, clamped to the int64 range. -/
def Time.Sub (t u : Time) : Duration :=
  let d : Int := (t.sec - u.sec) * 1000000000 + ((t.nsec : Int) - (u.nsec : Int))
  if d > 2 ^ 63 - 1 then 2 ^ 63 - 1
  else if d < -(2 ^ 63) then -(2 ^ 63)
  else d

/-! ### `Time.Format(time.RFC3339Nano)` -/

/-- The decimal digit `d` (below 10) as a character. -/
def digitChar (d : Nat) : Char := Char.ofNat (48 + d % 10)

/-- The last `width` decimal digits of `n`, most significant first. -/
def digits : Nat → Nat → List Char
  | 0, _ => []
  | width + 1, n => digits width (n / 10) ++ [digitChar n]

/-- All decimal digits of `n`, at least one. -/
def natDigits (n : Nat) : List Char := (Nat.toDigits 10 n)

/-- Package time's `appendInt(b, x, width)`: a minus sign for a negative `x`,
then the decimal digits, zero-padded on the left to `width`. -/
def appendInt (x : Int) (width : Nat) : List Char :=
  let u := x.natAbs
  let ds := natDigits u
  let body := List.replicate (width - ds.length) '0' ++ ds
  if x < 0 then '-' :: body else body

/-- The civil date (year, month, day) of a day count since 1970-01-01 in the
proleptic Gregorian calendar, as `Time.Date` gives it. -/
def civilFromDays (days : Int) : Int × Nat × Nat :=
  let z := days + 719468
  let era := z / 146097
  let doe := (z - era * 146097).toNat
  let yoe := (doe - doe / 1460 + doe / 36524 - doe / 146096) / 365
  let doy := doe - (365 * yoe + yoe / 4 - yoe / 100)
  let mp := (5 * doy + 2) / 153
  let d := doy - (153 * mp + 2) / 5 + 1
  let m := if mp < 10 then mp + 3 else mp - 9
  let y : Int := (yoe : Int) + era * 400
  (if m ≤ 2 then y + 1 else y, m, d)

/-- The element `.999999999` of a layout: the nanoseconds as nine digits with
trailing zeros removed, preceded by a dot; nothing at all when they are zero. -/
def formatNano (nsec : Nat) : List Char :=
  let ds := ((digits 9 nsec).reverse.dropWhile (· == '0')).reverse
  if ds.isEmpty then [] else '.' :: ds

/-- The element `Z07:00` of a layout: `Z` for offset zero, else sign, hours,
colon, minutes. -/
def formatZone (offset : Int) : List Char :=
  if offset = 0 then ['Z']
  else
    let zone := Int.tdiv offset 60
    let a := zone.natAbs
    (if zone < 0 then '-' else '+') :: (digits 2 (a / 60) ++ ':' :: digits 2 (a % 60))

/-- `t.Format(time.RFC3339Nano)`, layout `2006-01-02T15:04:05.999999999Z07:00`. -/
def Time.FormatRFC3339Nano (t : Time) : String :=
  let loc := t.sec + t.offset
  let days := loc / 86400
  let rem := (loc % 86400).toNat
  let (y, m, d) := civilFromDays days
  String.mk (appendInt y 4 ++ '-' :: digits 2 m ++ '-' :: digits 2 d ++ 'T' ::
    digits 2 (rem / 3600) ++ ':' :: digits 2 (rem % 3600 / 60) ++ ':' :: digits 2 (rem % 60) ++
    formatNano t.nsec ++ formatZone t.offset)

/-! ### Recorded formatted output -/

/-- An operand of a formatted write. -/
inductive Arg where
  /-- a `string` operand -/
  | str (s : String)
  /-- an `int` operand -/
  | int (i : Int)
  /-- a `[]byte` operand, or `string(b)` of one -/
  | bytes (b : Bytes)
  /-- a `time.Time` operand -/
  | time (t : Time)
  /-- a `time.Duration` operand -/
  | duration (d : Duration)
  /-- the string `t.Format(time.Stamp)` -/
  | stamp (t : Time)
  /-- an `error` operand -/
  | err (e : String)
  deriving DecidableEq, Repr

/-- One call of `fmt.Fprintf` or `log.Printf`: the format and its operands. -/
structure Printf where
  format : String
  args : List Arg
  deriving DecidableEq, Repr

/-- `[]byte(s)`: the UTF-8 bytes of a string. -/
def goBytes (s : String) : Bytes := s.data.flatMap String.utf8EncodeChar

/-- `bytes.Compare(a, b) < 0`: byte-wise lexicographic order, a proper prefix
first.  It is the order in which a bolt bucket keeps its keys. -/
def bytesLess : Bytes → Bytes → Bool
  | [], [] => false
  | [], _ :: _ => true
  | _ :: _, [] => false
  | a :: as, b :: bs => if a < b then true else if b < a then false else bytesLess as bs

/-! ## capture.go -/

def NOT_STARTED : Int := 0
def HEADERS : Int := 1
def BODY : Int := 2
def COMPLETED : Int := 3
def ABORTED : Int := 4
def TIMED_OUT : Int := 5

/-- Constant `http.StatusOK`. -/
def StatusOK : Int := 200

/-- The wrapped `http.ResponseWriter`, an object behind an interface value:
`σ` is the state of that object, and the two methods the capture writer calls
on it act on that state.  `Write` returns `(int, error)`, `none` for a nil
error. -/
structure ResponseWriter (σ : Type) where
  Write : σ → Bytes → σ × Int × Option String
  WriteHeader : σ → Int → σ

/-- A method call received by the wrapped writer. -/
inductive Call where
  | WriteHeader (status : Int)
  | Write (b : Bytes)
  deriving DecidableEq, Repr

/-- What the capture writer acts on besides its own fields: the wrapped writer
object, the calls that object has received so far (oldest first), and the
process log. -/
structure World (σ : Type) where
  under : σ
  calls : List Call
  log : List Printf

/-- A call of `log.Printf`. -/
def World.logPrintf {σ : Type} (s : World σ) (format : String) (args : List Arg) : World σ :=
  { s with log := s.log ++ [{ format := format, args := args }] }

/-- The fields of `captureWriter` other than the embedded `http.ResponseWriter`,
which is a reference to the object kept in `World.under`. -/
structure captureWriter where
  path : String
  httpStatus : Int
  size : Int
  state : Int
  deriving DecidableEq, Repr

/-- `NewCaptureWriter(w, path)`: `captureWriter{w, path, http.StatusOK, 0, NOT_STARTED}`. -/
def NewCaptureWriter (path : String) : captureWriter :=
  { path := path, httpStatus := StatusOK, size := 0, state := NOT_STARTED }

/-- The body of `func (cw captureWriter) WriteHeader(status int)` run on the
local `cw`; returns `cw` as the body leaves it, and the world. -/
def captureWriter.WriteHeaderBody {σ : Type} (rw : ResponseWriter σ) (cw : captureWriter)
    (status : Int) (s : World σ) : captureWriter × World σ :=
  let cw := { cw with httpStatus := status }
  let cw := { cw with state := HEADERS }
  let s := { s with under := rw.WriteHeader s.under status,
                    calls := s.calls ++ [Call.WriteHeader status] }
  (cw, s)

/-- A call `w.WriteHeader(status)`.  The receiver is declared by value
(`cw captureWriter`), so the body runs on a copy of the caller's writer and the
copy is dropped at return: the caller's writer, returned first, is `w` as it
was. -/
def captureWriter.WriteHeader {σ : Type} (rw : ResponseWriter σ) (w : captureWriter)
    (status : Int) (s : World σ) : captureWriter × World σ :=
  let (_, s) := captureWriter.WriteHeaderBody rw w status s
  (w, s)

/-- The body of `func (cw captureWriter) Write(b []byte) (int, error)` run on
the local `cw`; returns the `(int, error)` result, `cw` as the body leaves it,
and the world. -/
def captureWriter.WriteBody {σ : Type} (rw : ResponseWriter σ) (cw : captureWriter)
    (b : Bytes) (s : World σ) : (Int × Option String) × captureWriter × World σ :=
  let s := s.logPrintf "[DUMP] egress for %s\n" [Arg.bytes b]
  let r := rw.Write s.under b
  let size := r.2.1
  let err := r.2.2
  let s := { s with under := r.1, calls := s.calls ++ [Call.Write b] }
  let s := match err with
    | some e => s.logPrintf "[DEBUG] Could not dump response %s: %s\n" [Arg.str cw.path, Arg.err e]
    | none => s
  let cw := { cw with size := wrapInt (cw.size + size) }
  ((size, err), cw, s)

/-- A call `w.Write(b)`; the receiver is by value, as for `WriteHeader`. -/
def captureWriter.Write {σ : Type} (rw : ResponseWriter σ) (w : captureWriter)
    (b : Bytes) (s : World σ) : (Int × Option String) × captureWriter × World σ :=
  let (r, _, s) := captureWriter.WriteBody rw w b s
  (r, w, s)

/-- `w.HttpStatus()`. -/
def captureWriter.HttpStatus (cw : captureWriter) : Int := cw.httpStatus

/-- `w.Size()`. -/
def captureWriter.Size (cw : captureWriter) : Int := cw.size

/-- A sequence of `Write` calls on the writer held by the caller, each with one
chunk: the byte counts the calls returned (in call order), the caller's writer
afterwards, and the world. -/
def writeAll {σ : Type} (rw : ResponseWriter σ) :
    captureWriter → List Bytes → World σ → List Int × captureWriter × World σ
  | w, [], s => ([], w, s)
  | w, b :: bs, s =>
    let (r, w, s) := captureWriter.Write rw w b s
    let (ns, w, s) := writeAll rw w bs s
    (r.1 :: ns, w, s)

/-- A wrapped writer that keeps every byte it is given: its state is the bytes
received so far, `Write` returns `(len(b), nil)`. -/
def bufferWriter : ResponseWriter Bytes where
  Write := fun buf b => (buf ++ b, (b.length : Int), none)
  WriteHeader := fun buf _ => buf

/-- A wrapped writer whose connection is gone: `Write` takes nothing and
returns an error. -/
def brokenWriter : ResponseWriter Unit where
  Write := fun _ _ => ((), 0, some "write: broken pipe")
  WriteHeader := fun _ _ => ()

/-! ## storage/traffic_storage.go -/

def STORAGE_INMEMORY : String := "In memory"
def STORAGE_ONDISK : String := "On disk"
def BOLT_BUCKET : String := "SmartProxy"

/-- A Go `[]byte` field value: `none` is the nil slice, `some []` an empty
slice that is not nil. -/
abbrev Slice := Option Bytes

/-- The bytes of a slice, as `string(s)` sees them: none for the nil slice. -/
def Slice.bytes (s : Slice) : Bytes := s.getD []

/-- `Bytes *[]byte`: `none` is the nil pointer, `some s` a pointer to the slice
`s`. -/
structure TrafficIngress where
  Bytes : Option Slice
  deriving DecidableEq, Repr

/-- `Bytes *[]byte`, as for `TrafficIngress`. -/
structure TrafficEgress where
  Bytes : Option Slice
  deriving DecidableEq, Repr

structure TrafficTrace where
  ID : String
  Start : Time
  End : Time
  HttpStatus : Int
  HttpMethod : String
  URI : String
  Length : Int
  Ingress : Option TrafficIngress
  Egress : Option TrafficEgress
  deriving DecidableEq, Repr

/-- The zero value of `TrafficTrace`, what `new(TrafficTrace)` and
`var trace TrafficTrace` give. -/
def TrafficTrace.zero : TrafficTrace :=
  { ID := "", Start := Time.zero, End := Time.zero, HttpStatus := 0, HttpMethod := "",
    URI := "", Length := 0, Ingress := none, Egress := none }

/-- Package `encoding/json` at type `TrafficTrace`.  `Marshal` returns the
encoding or an error.  `Unmarshal data trace` is `json.Unmarshal(data, &trace)`:
it returns `trace` as the call leaves it, and the error (`none` for nil). -/
structure JSON where
  Marshal : TrafficTrace → Except String Bytes
  Unmarshal : Bytes → TrafficTrace → TrafficTrace × Option String

/-- The bucket `SmartProxy` of the bolt database: its key/value pairs, in the
order bolt keeps them (ascending keys, `bytesLess`). -/
abbrev Bucket := List (Bytes × Bytes)

/-- The order invariant of a bolt bucket: keys strictly ascending. -/
def Bucket.Ordered (b : Bucket) : Prop :=
  b.Pairwise (fun e f => bytesLess e.1 f.1 = true)

instance (b : Bucket) : Decidable b.Ordered := by
  unfold Bucket.Ordered; exact inferInstance

/-- `b.Stats().KeyN`: the number of keys. -/
def Bucket.KeyN (b : Bucket) : Int := (b.length : Int)

/-- `b.Cursor().First()`: the pair with the smallest key, `none` for a nil key. -/
def Bucket.First (b : Bucket) : Option (Bytes × Bytes) := b.head?

/-- `b.Cursor().Last()`: the pair with the largest key, `none` for a nil key. -/
def Bucket.Last (b : Bucket) : Option (Bytes × Bytes) := b.getLast?

/-- `b.Get(key)`. -/
def Bucket.Get : Bucket → Bytes → Option Bytes
  | [], _ => none
  | (k, v) :: rest, key => if k = key then some v else Bucket.Get rest key

/-- Constant `bolt.MaxKeySize`. -/
def MaxKeySize : Nat := 32768

/-- Constant `bolt.MaxValueSize`. -/
def MaxValueSize : Nat := 2 ^ 31 - 2

/-- The bucket with `key` set to `value`: an existing pair is overwritten, a
new one goes to its place in key order. -/
def Bucket.insert : Bucket → Bytes → Bytes → Bucket
  | [], key, value => [(key, value)]
  | (k, v) :: rest, key, value =>
    if bytesLess key k then (key, value) :: (k, v) :: rest
    else if k = key then (key, value) :: rest
    else (k, v) :: Bucket.insert rest key value

/-- `b.Put(key, value)` in a writable transaction: an error for a blank key,
a key that is too large or a value that is too large; else the pair is set. -/
def Bucket.Put (b : Bucket) (key value : Bytes) : Bucket × Option String :=
  if key.length = 0 then (b, some "key required")
  else if key.length > MaxKeySize then (b, some "key too large")
  else if value.length > MaxValueSize then (b, some "value too large")
  else (Bucket.insert b key value, none)

structure TrafficStorage where
  nature : String
  db : Bucket

/-- The writer `w io.Writer` a display function is given, and the process log:
the calls of `fmt.Fprintf(w, ...)` and of `log.Printf` so far, oldest first. -/
structure Out where
  w : List Printf
  log : List Printf
  deriving DecidableEq, Repr

/-- A call of `fmt.Fprintf(w, format, args...)`. -/
def Out.Fprintf (o : Out) (format : String) (args : List Arg) : Out :=
  { o with w := o.w ++ [{ format := format, args := args }] }

/-- A call of `log.Printf(format, args...)`. -/
def Out.logPrintf (o : Out) (format : String) (args : List Arg) : Out :=
  { o with log := o.log ++ [{ format := format, args := args }] }

/-- How a function call ends. -/
inductive Exit where
  | returned
  | panicked (reason : String)
  deriving DecidableEq, Repr

/-- The run-time panic of a nil pointer dereference. -/
def nilDereference : Exit :=
  Exit.panicked "runtime error: invalid memory address or nil pointer dereference"

/-- `storage.CreateTrace()`, where `now` is what `time.Now()` returns in the
call.  Returns the trace and the log line. -/
def TrafficStorage.CreateTrace (_storage : TrafficStorage) (now : Time) : TrafficTrace × Printf :=
  let trace := TrafficTrace.zero
  let current := now.UTC
  let trace := { trace with ID := current.FormatRFC3339Nano }
  (trace, { format := "[DEBUG] STORAGE Created new trace with id: %s\n", args := [Arg.str trace.ID] })

/-- One `CreateTrace` call per clock reading, in order: the traces returned. -/
def TrafficStorage.CreateTraces (storage : TrafficStorage) (clock : List Time) : List TrafficTrace :=
  clock.map (fun now => (storage.CreateTrace now).1)

/-- `storage.StoreTrace(trace)`: the closure runs in `db.Update`; an error it
returns rolls the transaction back, nil commits. -/
def TrafficStorage.StoreTrace (json : JSON) (storage : TrafficStorage) (trace : TrafficTrace)
    (log : List Printf) : TrafficStorage × List Printf :=
  let log := log ++ [{ format := "[DEBUG] STORAGE Storing trace ", args := [Arg.str trace.ID] }]
  match json.Marshal trace with
  | Except.error _ =>
    (storage,
      log ++ [{ format := "[WARNING] STORAGE Cannot encode trace with id: %s\n",
                args := [Arg.str trace.ID] }])
  | Except.ok encoded =>
    match storage.db.Put (goBytes trace.ID) encoded with
    | (_, some _) =>
      (storage,
        log ++ [{ format := "[WARNING] STORAGE Error while storing capture trace with id: %s\n",
                  args := [Arg.str trace.ID] }])
    | (db, none) => ({ storage with db := db }, log)

/-- The listing line `DisplayLatestTraces` writes for a decoded trace. -/
def listingLine (route : String) (trace : TrafficTrace) : Printf :=
  { format := "<p>%v <a href=\"%s/%s\">%s</a> %v  %s</p>",
    args := [Arg.stamp trace.Start, Arg.str route, Arg.str trace.ID, Arg.str trace.HttpMethod,
             Arg.int trace.HttpStatus, Arg.str trace.URI] }

/-- The loop of `DisplayLatestTraces`,
`for key, bytes := c.Last(); key != nil; key, bytes = c.Prev()`, over the pairs
the cursor yields (the first argument: the pair at `Last`, then each `Prev`).
`count` is the counter on entry. -/
def latestLoop (json : JSON) (route : String) (max : Int) :
    List (Bytes × Bytes) → Int → Out → Int × Out
  | [], count, out => (count, out)
  | (_, bytes) :: prev, count, out =>
    match json.Unmarshal bytes TrafficTrace.zero with
    | (_, some _) =>
      latestLoop json route max prev count
        (out.logPrintf "[DEBUG] STORAGE json decode failed for bytes %s\n" [Arg.bytes bytes])
    | (trace, none) =>
      let out := out.Fprintf (listingLine route trace).format (listingLine route trace).args
      let count := count + 1
      if count ≥ max then (count, out)
      else latestLoop json route max prev count out

/-- `storage.DisplayLatestTraces(w, route, max)`: the returned count and the
output. -/
def TrafficStorage.DisplayLatestTraces (json : JSON) (storage : TrafficStorage) (out : Out)
    (route : String) (max : Int) : Int × Out :=
  let out := out.logPrintf "[DEBUG] STORAGE fetching last traces, %d max\n" [Arg.int max]
  let total := storage.db.KeyN
  let (count, out) := latestLoop json route max storage.db.reverse 0 out
  if total = 0 then (count, out.Fprintf "<p>No traffic so far</p>\n" [])
  else (count, out.Fprintf "<p>%v/%v traces</p>\n" [Arg.int count, Arg.int total])

/-- `displayTraceAsHTML(w, trace)`. -/
def displayTraceAsHTML (out : Out) (trace : TrafficTrace) : Out × Exit :=
  let out := out.Fprintf "<p>ID : %s</p>" [Arg.str trace.ID]
  let out := out.Fprintf "<p>Method : %s</p>" [Arg.str trace.HttpMethod]
  let out := out.Fprintf "<p>URI : %s</p>" [Arg.str trace.URI]
  let out := out.Fprintf "<p>Status : %v</p>" [Arg.int trace.HttpStatus]
  let start := trace.Start
  let stop := trace.End
  let out := out.Fprintf "<p>Duration : %v</p>" [Arg.duration (stop.Sub start)]
  let out := out.Fprintf "<p>Started at : %v</p>" [Arg.time start]
  let out := out.Fprintf "<p>Completed at : %v</p>" [Arg.time stop]
  let out := out.Fprintf "<p>Outgoing size : %v bytes</p>" [Arg.int trace.Length]
  match trace.Ingress with
  | none => (out, nilDereference)
  | some ingress =>
    match ingress.Bytes with
    | none => (out, nilDereference)
    | some ib =>
      let out := out.Fprintf "<p>Incoming : %s</p>" [Arg.bytes ib.bytes]
      match trace.Egress with
      | none => (out, nilDereference)
      | some egress =>
        match egress.Bytes with
        | none => (out, nilDereference)
        | some eb => (out.Fprintf "<p>Outgoing : %s</p>" [Arg.bytes eb.bytes], Exit.returned)

/-- `displayTraceAsJSON(w, trace)`. -/
def displayTraceAsJSON (out : Out) (trace : TrafficTrace) : Out × Exit :=
  let out := out.Fprintf "\x7b \"id\":\"%s\", " [Arg.str trace.ID]
  let out := out.Fprintf "\"Method\" : \"%s\", " [Arg.str trace.HttpMethod]
  let out := out.Fprintf "\"URI\" : \"%s\", " [Arg.str trace.URI]
  let out := out.Fprintf "\"Status\" : \"\"%v\", " [Arg.int trace.HttpStatus]
  let start := trace.Start
  let stop := trace.End
  let out := out.Fprintf "\"Duration\" : \"%v\", " [Arg.duration (stop.Sub start)]
  let out := out.Fprintf "\"Started at\" : \"%v\", " [Arg.time start]
  let out := out.Fprintf "\"Completed at\" : \"%v\", " [Arg.time stop]
  let out := out.Fprintf "\"ResponseLength\" : \"%v\", " [Arg.int trace.Length]
  match trace.Ingress with
  | none => (out, nilDereference)
  | some ingress =>
    match ingress.Bytes with
    | none => (out, nilDereference)
    | some ib =>
      let out := out.Fprintf "\"Incoming\" : \x7b%s\x7d, " [Arg.bytes ib.bytes]
      match trace.Egress with
      | none => (out, nilDereference)
      | some egress =>
        match egress.Bytes with
        | none => (out, nilDereference)
        | some eb => (out.Fprintf "\"Outgoing\" : \x7b%s\x7d \x7d" [Arg.bytes eb.bytes], Exit.returned)

/-- The closure `DisplayLastTrace` and `DisplayFirstTrace` pass to `db.View`,
given what the cursor returned (`none` for a nil key): the variable `trace` of
the enclosing function as the closure leaves it, and the output.  Every branch
of the closure ends in `return nil`, which returns from the closure. -/
def viewTrace (json : JSON) (found : Option (Bytes × Bytes)) (which : String)
    (trace : TrafficTrace) (out : Out) : TrafficTrace × Out :=
  match found with
  | none =>
    let out := out.logPrintf ("[DEBUG] STORAGE " ++ which ++ " trace not found, no capture presumed\n") []
    (trace, out.Fprintf "<p>No traffic capture found</p>" [])
  | some (_, bytes) =>
    match json.Unmarshal bytes trace with
    | (trace, some _) =>
      let out := out.logPrintf "[DEBUG] STORAGE json decode failed for bytes %s\n" [Arg.bytes bytes]
      (trace, out.Fprintf "<p>Cannot read traffic data</p>" [])
    | (trace, none) => (trace, out)

/-- `storage.DisplayLastTrace(w, route)`. -/
def TrafficStorage.DisplayLastTrace (json : JSON) (storage : TrafficStorage) (out : Out)
    (_route : String) : Out × Exit :=
  let out := out.logPrintf "[DEBUG] STORAGE fetching last trace\n" []
  let trace := TrafficTrace.zero
  let (trace, out) := viewTrace json storage.db.Last "last" trace out
  displayTraceAsJSON out trace

/-- `storage.DisplayFirstTrace(w, route)`. -/
def TrafficStorage.DisplayFirstTrace (json : JSON) (storage : TrafficStorage) (out : Out)
    (_route : String) : Out × Exit :=
  let out := out.logPrintf "[DEBUG] STORAGE fetching first trace\n" []
  let trace := TrafficTrace.zero
  let (trace, out) := viewTrace json storage.db.First "first" trace out
  displayTraceAsJSON out trace

/-! ## encoding/json at type TrafficTrace

`json.Marshal` and `json.Unmarshal` as the storage uses them, written from the
documented behaviour of packages `encoding/json`, `encoding/base64`, `time` and
`unicode/utf8` (Go 1.22).  The JSON text is a list of characters; the stored
bytes are its UTF-8 encoding. -/

/-- The rune U+FFFD that stands for invalid input. -/
def replacementChar : Char := Char.ofNat 0xFFFD

/-- Package `unicode/utf8`, `DecodeRune`: the first rune of the bytes and the
bytes after it; an invalid or incomplete encoding gives U+FFFD and consumes one
byte.  `none` for no bytes. -/
def utf8DecodeRune : List UInt8 → Option (Char × List UInt8)
  | [] => none
  | b0 :: rest =>
    let x0 := b0.toNat
    if x0 < 0x80 then some (Char.ofNat x0, rest)
    else
      match rest with
      | [] => some (replacementChar, rest)
      | b1 :: rest1 =>
        let x1 := b1.toNat
        if 0xC2 ≤ x0 ∧ x0 ≤ 0xDF then
          if 0x80 ≤ x1 ∧ x1 ≤ 0xBF then
            some (Char.ofNat ((x0 - 0xC0) * 64 + (x1 - 0x80)), rest1)
          else some (replacementChar, rest)
        else
          match rest1 with
          | [] => some (replacementChar, rest)
          | b2 :: rest2 =>
            let x2 := b2.toNat
            if 0xE0 ≤ x0 ∧ x0 ≤ 0xEF then
              if (if x0 = 0xE0 then 0xA0 else 0x80) ≤ x1 ∧ x1 ≤ (if x0 = 0xED then 0x9F else 0xBF)
                  ∧ 0x80 ≤ x2 ∧ x2 ≤ 0xBF then
                some (Char.ofNat ((x0 - 0xE0) * 4096 + (x1 - 0x80) * 64 + (x2 - 0x80)), rest2)
              else some (replacementChar, rest)
            else
              match rest2 with
              | [] => some (replacementChar, rest)
              | b3 :: rest3 =>
                let x3 := b3.toNat
                if 0xF0 ≤ x0 ∧ x0 ≤ 0xF4 then
                  if (if x0 = 0xF0 then 0x90 else 0x80) ≤ x1
                      ∧ x1 ≤ (if x0 = 0xF4 then 0x8F else 0xBF)
                      ∧ 0x80 ≤ x2 ∧ x2 ≤ 0xBF ∧ 0x80 ≤ x3 ∧ x3 ≤ 0xBF then
                    some (Char.ofNat ((x0 - 0xF0) * 262144 + (x1 - 0x80) * 4096
                      + (x2 - 0x80) * 64 + (x3 - 0x80)), rest3)
                  else some (replacementChar, rest)
                else some (replacementChar, rest)

/-- The runes of a byte sequence, `fuel` bounding their number. -/
def utf8DecodeAux : Nat → List UInt8 → List Char
  | 0, _ => []
  | fuel + 1, bs =>
    match utf8DecodeRune bs with
    | none => []
    | some (c, rest) => c :: utf8DecodeAux fuel rest

/-- The runes of a byte sequence. -/
def utf8Decode (bs : List UInt8) : List Char := utf8DecodeAux bs.length bs

/-- The UTF-8 bytes of a text. -/
def utf8Encode (cs : List Char) : List UInt8 := cs.flatMap String.utf8EncodeChar

/-! ### JSON syntax -/

/-- A JSON value as `json.Unmarshal` reads it.  A number keeps its literal; a
string keeps the characters between its quotes as written (`raw`) next to the
characters they stand for (`val`). -/
inductive JValue where
  | null
  | bool (b : Bool)
  | number (lit : List Char)
  | string (raw : List Char) (val : List Char)
  | array (elems : List JValue)
  | object (members : List (List Char × JValue))

/-- JSON white space. -/
def isSpace (c : Char) : Bool := c = ' ' || c = '\t' || c = '\r' || c = '\n'

def skipSpace : List Char → List Char
  | [] => []
  | c :: cs => if isSpace c then skipSpace cs else c :: cs

/-- The value of a hexadecimal digit. -/
def hexValue (c : Char) : Option Nat :=
  let n := c.toNat
  if 48 ≤ n ∧ n ≤ 57 then some (n - 48)
  else if 97 ≤ n ∧ n ≤ 102 then some (n - 87)
  else if 65 ≤ n ∧ n ≤ 70 then some (n - 55)
  else none

/-- The value of four hexadecimal digits. -/
def hex4 (a b c d : Char) : Option Nat :=
  match hexValue a, hexValue b, hexValue c, hexValue d with
  | some x, some y, some z, some w => some (((x * 16 + y) * 16 + z) * 16 + w)
  | _, _, _, _ => none

/-- The escape `\uXXXX` of a low surrogate at the head of the text: its value
and the text after it. -/
def lowSurrogate (cs : List Char) : Option (Nat × List Char) :=
  match cs with
  | c0 :: c1 :: g1 :: g2 :: g3 :: g4 :: rest =>
    if c0 = '\\' ∧ c1 = 'u' then
      match hex4 g1 g2 g3 g4 with
      | some l => if 0xDC00 ≤ l ∧ l < 0xE000 then some (l, rest) else none
      | none => none
    else none
  | _ => none

/-- The character a one-letter escape stands for. -/
def simpleEscape (e : Char) : Option Char :=
  if e = '"' then some '"'
  else if e = '\\' then some '\\'
  else if e = '/' then some '/'
  else if e = 'b' then some '\x08'
  else if e = 'f' then some '\x0c'
  else if e = 'n' then some '\n'
  else if e = 'r' then some '\r'
  else if e = 't' then some '\t'
  else none

/-- Puts a piece of source text and the character it stands for in front of a
scanned string. -/
def consPiece (src : List Char) (c : Char)
    (r : Option (List Char × List Char × List Char)) : Option (List Char × List Char × List Char) :=
  match r with
  | none => none
  | some (raw, val, rest) => some (src ++ raw, c :: val, rest)

/-- A string literal after its opening quote: the characters up to the closing
quote as written, the characters they stand for, and the text after the closing
quote.  A control character, an unknown escape or a missing quote is a syntax
error (`none`).  A surrogate escape that is not half of a pair stands for
U+FFFD. -/
def scanString : Nat → List Char → Option (List Char × List Char × List Char)
  | 0, _ => none
  | _, [] => none
  | fuel + 1, c :: rest =>
    if c = '"' then some ([], [], rest)
    else if c = '\\' then
      match rest with
      | [] => none
      | e :: rest1 =>
        if e = 'u' then
          match rest1 with
          | h1 :: h2 :: h3 :: h4 :: rest2 =>
            match hex4 h1 h2 h3 h4 with
            | none => none
            | some u =>
              if 0xD800 ≤ u ∧ u < 0xE000 then
                match (if u < 0xDC00 then lowSurrogate rest2 else none) with
                | some (l, rest3) =>
                  consPiece ([c, e, h1, h2, h3, h4] ++ rest2.take 6)
                    (Char.ofNat (0x10000 + (u - 0xD800) * 1024 + (l - 0xDC00)))
                    (scanString fuel rest3)
                | none => consPiece [c, e, h1, h2, h3, h4] replacementChar (scanString fuel rest2)
              else consPiece [c, e, h1, h2, h3, h4] (Char.ofNat u) (scanString fuel rest2)
          | _ => none
        else
          match simpleEscape e with
          | some x => consPiece [c, e] x (scanString fuel rest1)
          | none => none
    else if c.toNat < 0x20 then none
    else consPiece [c] c (scanString fuel rest)

/-- A decimal digit. -/
def isDigit (c : Char) : Bool := decide (48 ≤ c.toNat) && decide (c.toNat ≤ 57)

/-- The leading decimal digits of a text and the text after them. -/
def takeDigits : List Char → List Char × List Char
  | [] => ([], [])
  | c :: cs =>
    if isDigit c then ((takeDigits cs).1.cons c, (takeDigits cs).2)
    else ([], c :: cs)

/-- The fraction part of a number literal, if the text starts with one. -/
def scanFraction (cs : List Char) : Option (List Char × List Char) :=
  match cs with
  | c :: r =>
    if c = '.' then
      if (takeDigits r).1.isEmpty then none
      else some (c :: (takeDigits r).1, (takeDigits r).2)
    else some ([], cs)
  | [] => some ([], cs)

/-- The exponent part of a number literal, if the text starts with one. -/
def scanExponent (cs : List Char) : Option (List Char × List Char) :=
  match cs with
  | c :: r =>
    if c = 'e' ∨ c = 'E' then
      match r with
      | s :: r1 =>
        if s = '+' ∨ s = '-' then
          if (takeDigits r1).1.isEmpty then none
          else some (c :: s :: (takeDigits r1).1, (takeDigits r1).2)
        else if (takeDigits r).1.isEmpty then none
        else some (c :: (takeDigits r).1, (takeDigits r).2)
      | [] => none
    else some ([], cs)
  | [] => some ([], cs)

/-- The integer part of a number literal after the sign: `0`, or a digit from 1
to 9 followed by digits. -/
def scanIntPart (cs : List Char) : Option (List Char × List Char) :=
  match cs with
  | c :: r =>
    if c = '0' then some ([c], r)
    else if isDigit c then some (c :: (takeDigits r).1, (takeDigits r).2)
    else none
  | [] => none

/-- A number literal at the head of the text: the literal and the text after
it. -/
def scanNumber (cs : List Char) : Option (List Char × List Char) :=
  let signed : List Char × List Char :=
    match cs with
    | c :: r => if c = '-' then ([c], r) else ([], cs)
    | [] => ([], cs)
  match scanIntPart signed.2 with
  | none => none
  | some (ip, r1) =>
    match scanFraction r1 with
    | none => none
    | some (fp, r2) =>
      match scanExponent r2 with
      | none => none
      | some (ep, r3) => some (signed.1 ++ ip ++ fp ++ ep, r3)

/-- What the parser is reading. -/
inductive Goal where
  | value
  | elements
  | members

/-- What the parser has read. -/
inductive Parsed where
  | value (v : JValue)
  | elements (vs : List JValue)
  | members (ms : List (List Char × JValue))

/-- The JSON parser.  With goal `value` it reads one value, white space before
it included; with goal `elements` the elements of an array after `[` up to and
with `]`; with goal `members` the members of an object after the opening brace
up to and with the closing one.  Returns what it read and the text after it,
`none` for a syntax error.  `fuel` bounds the number of values read. -/
def parse : Nat → Goal → List Char → Option (Parsed × List Char)
  | 0, _, _ => none
  | fuel + 1, Goal.value, cs =>
    match skipSpace cs with
    | [] => none
    | c :: rest =>
      if c = '"' then
        match scanString rest.length rest with
        | some (raw, val, rest1) => some (Parsed.value (JValue.string raw val), rest1)
        | none => none
      else if c = '[' then
        match skipSpace rest with
        | [] => none
        | c1 :: rest1 =>
          if c1 = ']' then some (Parsed.value (JValue.array []), rest1)
          else
            match parse fuel Goal.elements (c1 :: rest1) with
            | some (Parsed.elements vs, rest2) => some (Parsed.value (JValue.array vs), rest2)
            | _ => none
      else if c = '\x7b' then
        match skipSpace rest with
        | [] => none
        | c1 :: rest1 =>
          if c1 = '\x7d' then some (Parsed.value (JValue.object []), rest1)
          else
            match parse fuel Goal.members (c1 :: rest1) with
            | some (Parsed.members ms, rest2) => some (Parsed.value (JValue.object ms), rest2)
            | _ => none
      else if c = 'n' then
        if rest.take 3 = ['u', 'l', 'l'] then some (Parsed.value JValue.null, rest.drop 3) else none
      else if c = 't' then
        if rest.take 3 = ['r', 'u', 'e'] then some (Parsed.value (JValue.bool true), rest.drop 3)
        else none
      else if c = 'f' then
        if rest.take 4 = ['a', 'l', 's', 'e'] then
          some (Parsed.value (JValue.bool false), rest.drop 4)
        else none
      else
        match scanNumber (c :: rest) with
        | some (lit, rest1) => some (Parsed.value (JValue.number lit), rest1)
        | none => none
  | fuel + 1, Goal.elements, cs =>
    match parse fuel Goal.value cs with
    | some (Parsed.value v, rest) =>
      match skipSpace rest with
      | [] => none
      | c :: rest1 =>
        if c = ',' then
          match parse fuel Goal.elements rest1 with
          | some (Parsed.elements vs, rest2) => some (Parsed.elements (v :: vs), rest2)
          | _ => none
        else if c = ']' then some (Parsed.elements [v], rest1)
        else none
    | _ => none
  | fuel + 1, Goal.members, cs =>
    match skipSpace cs with
    | [] => none
    | q :: rest =>
      if q = '"' then
        match scanString rest.length rest with
        | none => none
        | some (_, key, rest1) =>
          match skipSpace rest1 with
          | [] => none
          | colon :: rest2 =>
            if colon = ':' then
              match parse fuel Goal.value rest2 with
              | some (Parsed.value v, rest3) =>
                match skipSpace rest3 with
                | [] => none
                | c :: rest4 =>
                  if c = ',' then
                    match parse fuel Goal.members rest4 with
                    | some (Parsed.members ms, rest5) =>
                      some (Parsed.members ((key, v) :: ms), rest5)
                    | _ => none
                  else if c = '\x7d' then some (Parsed.members [(key, v)], rest4)
                  else none
              | _ => none
            else none
      else none

/-- A whole JSON text: one value with nothing but white space after it. -/
def parseJSON (cs : List Char) : Option JValue :=
  match parse (2 * cs.length + 2) Goal.value cs with
  | some (Parsed.value v, rest) => if (skipSpace rest).isEmpty then some v else none
  | _ => none

/-! ### Values of the field types -/

/-- The number a text of decimal digits stands for, `acc` being the number read
so far. -/
def digitsValue : List Char → Nat → Nat
  | [], acc => acc
  | c :: cs, acc => digitsValue cs (acc * 10 + (c.toNat - 48))

/-- Package `strconv`, `ParseInt(lit, 10, 64)` on a JSON number literal: the
integer, or `none` when the literal has a fraction or an exponent or the value
does not fit an int64. -/
def parseInt (lit : List Char) : Option Int :=
  match lit with
  | [] => none
  | c :: r =>
    if c = '-' then
      if r.all isDigit ∧ ¬ r.isEmpty ∧ digitsValue r 0 ≤ 2 ^ 63 then some (-(digitsValue r 0 : Int))
      else none
    else if lit.all isDigit ∧ digitsValue lit 0 < 2 ^ 63 then some (digitsValue lit 0 : Int)
    else none

/-- Package `strconv`, `AppendInt(dst, i, 10)`. -/
def formatInt (i : Int) : List Char :=
  if i < 0 then '-' :: Nat.toDigits 10 i.natAbs else Nat.toDigits 10 i.natAbs

/-- The alphabet of `base64.StdEncoding`. -/
def base64Char (n : Nat) : Char :=
  if n < 26 then Char.ofNat (65 + n)
  else if n < 52 then Char.ofNat (97 + (n - 26))
  else if n < 62 then Char.ofNat (48 + (n - 52))
  else if n = 62 then '+'
  else '/'

/-- The six bits a character of the alphabet stands for. -/
def base64Value (c : Char) : Option Nat :=
  let n := c.toNat
  if 65 ≤ n ∧ n ≤ 90 then some (n - 65)
  else if 97 ≤ n ∧ n ≤ 122 then some (n - 97 + 26)
  else if 48 ≤ n ∧ n ≤ 57 then some (n - 48 + 52)
  else if c = '+' then some 62
  else if c = '/' then some 63
  else none

/-- `base64.StdEncoding.EncodeToString`. -/
def base64Encode : List UInt8 → List Char
  | [] => []
  | [a] =>
    [base64Char (a.toNat / 4), base64Char (a.toNat % 4 * 16), '=', '=']
  | [a, b] =>
    [base64Char (a.toNat / 4), base64Char (a.toNat % 4 * 16 + b.toNat / 16),
     base64Char (b.toNat % 16 * 4), '=']
  | a :: b :: c :: rest =>
    base64Char (a.toNat / 4) :: base64Char (a.toNat % 4 * 16 + b.toNat / 16) ::
      base64Char (b.toNat % 16 * 4 + c.toNat / 64) :: base64Char (c.toNat % 64) ::
      base64Encode rest

/-- The bytes of the quantum of four characters, `=` marking padding; `none`
for a character outside the alphabet or padding out of place. -/
def base64Quantum (c0 c1 c2 c3 : Char) (last : Bool) : Option (List UInt8) :=
  match base64Value c0, base64Value c1 with
  | some v0, some v1 =>
    if c2 = '=' then
      if c3 = '=' ∧ last then some [UInt8.ofNat (v0 * 4 + v1 / 16)] else none
    else
      match base64Value c2 with
      | none => none
      | some v2 =>
        if c3 = '=' then
          if last then
            some [UInt8.ofNat (v0 * 4 + v1 / 16), UInt8.ofNat (v1 % 16 * 16 + v2 / 4)]
          else none
        else
          match base64Value c3 with
          | none => none
          | some v3 =>
            some [UInt8.ofNat (v0 * 4 + v1 / 16), UInt8.ofNat (v1 % 16 * 16 + v2 / 4),
                  UInt8.ofNat (v2 % 4 * 64 + v3)]
  | _, _ => none

/-- The bytes of a padded base64 text without line breaks. -/
def base64DecodeQuanta : List Char → Option (List UInt8)
  | [] => some []
  | c0 :: c1 :: c2 :: c3 :: rest =>
    match base64Quantum c0 c1 c2 c3 rest.isEmpty, base64DecodeQuanta rest with
    | some bs, some more => some (bs ++ more)
    | _, _ => none
  | _ => none

/-- `base64.StdEncoding.DecodeString`: carriage returns and line feeds are
ignored. -/
def base64Decode (cs : List Char) : Option (List UInt8) :=
  base64DecodeQuanta (cs.filter (fun c => ¬ (c = '\r' ∨ c = '\n')))

/-! ### Times -/

/-- `t.Year()`: the year of the date in the location of `t`. -/
def Time.Year (t : Time) : Int := (civilFromDays ((t.sec + t.offset) / 86400)).1

/-- The day count since 1970-01-01 of a civil date. -/
def daysFromCivil (y : Int) (m d : Nat) : Int :=
  let y1 := if m ≤ 2 then y - 1 else y
  let era := y1 / 400
  let yoe := (y1 - era * 400).toNat
  let mp := if m > 2 then m - 3 else m + 9
  let doy := (153 * mp + 2) / 5 + d - 1
  let doe := yoe * 365 + yoe / 4 - yoe / 100 + doy
  era * 146097 + (doe : Int) - 719468

/-- The number of days of a month. -/
def daysIn (m : Nat) (y : Nat) : Nat :=
  if m = 2 then (if y % 4 = 0 ∧ (y % 100 ≠ 0 ∨ y % 400 = 0) then 29 else 28)
  else if m = 4 ∨ m = 6 ∨ m = 9 ∨ m = 11 then 30
  else 31

/-- A field of `width` decimal digits within `lo` and `hi` at the head of the
text: its value and the text after it. -/
def scanField (width lo hi : Nat) (cs : List Char) : Option (Nat × List Char) :=
  if cs.length < width then none
  else if (cs.take width).all isDigit ∧ lo ≤ digitsValue (cs.take width) 0
      ∧ digitsValue (cs.take width) 0 ≤ hi then
    some (digitsValue (cs.take width) 0, cs.drop width)
  else none

/-- The literal character `c` at the head of the text: the text after it. -/
def scanChar (c : Char) (cs : List Char) : Option (List Char) :=
  match cs with
  | x :: rest => if x = c then some rest else none
  | [] => none

/-- The nanoseconds of the digits of a fractional second: the first nine count,
scaled to nine places. -/
def nanosOfDigits (ds : List Char) : Nat :=
  digitsValue (ds.take 9) 0 * 10 ^ (9 - (ds.take 9).length)

/-- The fractional second at the head of the text, a dot followed by at least
one digit: its nanoseconds and the text after it; 0 and the text itself when
there is none. -/
def scanFraction9 (cs : List Char) : Nat × List Char :=
  match cs with
  | dot :: r =>
    if dot = '.' ∧ ¬ (takeDigits r).1.isEmpty then
      (nanosOfDigits (takeDigits r).1, (takeDigits r).2)
    else (0, cs)
  | [] => (0, cs)

/-- The zone at the end of an RFC 3339 text: `Z`, or sign, two digits of hours,
colon, two digits of minutes, and nothing after it.  The offset in seconds. -/
def scanZone (cs : List Char) : Option Int :=
  match cs with
  | [z] => if z = 'Z' then some 0 else none
  | [s, h1, h2, c, m1, m2] =>
    match scanField 2 0 23 [h1, h2], scanField 2 0 59 [m1, m2] with
    | some (hr, _), some (mm, _) =>
      if c = ':' then
        if s = '+' then some (((hr * 60 + mm) * 60 : Nat) : Int)
        else if s = '-' then some (-(((hr * 60 + mm) * 60 : Nat) : Int))
        else none
      else none
    | _, _ => none
  | _ => none

/-- Package `time`, the strict RFC 3339 parser `Time.UnmarshalJSON` applies to
the characters between the quotes. -/
def parseRFC3339 (cs : List Char) : Option Time :=
  match scanField 4 0 9999 cs with
  | none => none
  | some (year, r1) =>
  match scanChar '-' r1 with
  | none => none
  | some r2 =>
  match scanField 2 1 12 r2 with
  | none => none
  | some (month, r3) =>
  match scanChar '-' r3 with
  | none => none
  | some r4 =>
  match scanField 2 1 (daysIn month year) r4 with
  | none => none
  | some (day, r5) =>
  match scanChar 'T' r5 with
  | none => none
  | some r6 =>
  match scanField 2 0 23 r6 with
  | none => none
  | some (hour, r7) =>
  match scanChar ':' r7 with
  | none => none
  | some r8 =>
  match scanField 2 0 59 r8 with
  | none => none
  | some (min, r9) =>
  match scanChar ':' r9 with
  | none => none
  | some r10 =>
  match scanField 2 0 59 r10 with
  | none => none
  | some (sec, r11) =>
    match scanZone (scanFraction9 r11).2 with
    | none => none
    | some offset =>
      some { sec := daysFromCivil year month day * 86400
                      + ((hour * 3600 + min * 60 + sec : Nat) : Int) - offset,
             nsec := (scanFraction9 r11).1, offset := offset }

/-- `Time.MarshalJSON`: the RFC3339Nano text in quotes; an error for a year
outside 0 to 9999 or a zone of 24 hours or more. -/
def marshalTime (t : Time) : Except String (List Char) :=
  if t.Year < 0 ∨ t.Year ≥ 10000 then
    Except.error "Time.MarshalJSON: year outside of range [0,9999]"
  else if (Int.tdiv t.offset 60).natAbs / 60 ≥ 24 then
    Except.error "Time.MarshalJSON: timezone hour outside of range [0,23]"
  else Except.ok ('"' :: t.FormatRFC3339Nano.data ++ ['"'])

/-! ### Marshal -/

/-- A hexadecimal digit, lower case. -/
def hexDigit (n : Nat) : Char :=
  if n < 10 then Char.ofNat (48 + n) else Char.ofNat (87 + n)

/-- How the encoder writes one character of a string: quote and backslash with
a backslash, the usual control characters by letter, the other control
characters, `<`, `>`, `&`, U+2028 and U+2029 as `\u` escapes, every other
character as it is. -/
def escapeChar (c : Char) : List Char :=
  if c = '"' then ['\\', '"']
  else if c = '\\' then ['\\', '\\']
  else if c = '\x08' then ['\\', 'b']
  else if c = '\x0c' then ['\\', 'f']
  else if c = '\n' then ['\\', 'n']
  else if c = '\r' then ['\\', 'r']
  else if c = '\t' then ['\\', 't']
  else if c.toNat < 0x20 ∨ c = '<' ∨ c = '>' ∨ c = '&' then
    ['\\', 'u', '0', '0', hexDigit (c.toNat / 16), hexDigit (c.toNat % 16)]
  else if c = '\u2028' then ['\\', 'u', '2', '0', '2', '8']
  else if c = '\u2029' then ['\\', 'u', '2', '0', '2', '9']
  else [c]

/-- A Go string as a JSON string literal. -/
def marshalString (s : String) : List Char :=
  '"' :: s.data.flatMap escapeChar ++ ['"']

/-- An object: its members, each a key and the text of its value, in order. -/
def objectText : List (List Char × List Char) → List Char
  | [] => ['\x7b', '\x7d']
  | [(k, v)] => '\x7b' :: '"' :: k ++ '"' :: ':' :: v ++ ['\x7d']
  | (k, v) :: m :: ms =>
    '\x7b' :: '"' :: k ++ '"' :: ':' :: v ++ ',' :: (objectText (m :: ms)).tail

/-- The field `Bytes *[]byte`: `null` for a nil pointer and for a pointer to a
nil slice, else the base64 text of the bytes in quotes. -/
def marshalBytes (p : Option Slice) : List Char :=
  match p with
  | none => ['n', 'u', 'l', 'l']
  | some none => ['n', 'u', 'l', 'l']
  | some (some b) => '"' :: base64Encode b ++ ['"']

/-- A field `*TrafficIngress` or `*TrafficEgress`, given its `Bytes` when the
pointer is not nil: `null` for a nil pointer, else the object. -/
def marshalCapture (p : Option (Option Slice)) : List Char :=
  match p with
  | none => ['n', 'u', 'l', 'l']
  | some b => objectText [("Bytes".data, marshalBytes b)]

/-- The JSON text `json.Marshal(trace)` writes, or its error. -/
def marshalText (t : TrafficTrace) : Except String (List Char) :=
  match marshalTime t.Start, marshalTime t.End with
  | Except.error e, _ => Except.error e
  | Except.ok _, Except.error e => Except.error e
  | Except.ok start, Except.ok stop =>
    Except.ok (objectText
      [("ID".data, marshalString t.ID),
       ("Start".data, start),
       ("End".data, stop),
       ("HttpStatus".data, formatInt t.HttpStatus),
       ("HttpMethod".data, marshalString t.HttpMethod),
       ("URI".data, marshalString t.URI),
       ("Length".data, formatInt t.Length),
       ("Ingress".data, marshalCapture (t.Ingress.map (fun i => i.Bytes))),
       ("Egress".data, marshalCapture (t.Egress.map (fun e => e.Bytes)))])

/-- `json.Marshal(trace)`. -/
def goMarshal (t : TrafficTrace) : Except String Bytes :=
  match marshalText t with
  | Except.error e => Except.error e
  | Except.ok text => Except.ok (utf8Encode text)

/-! ### Unmarshal -/

/-- ASCII lower case. -/
def lowerChar (c : Char) : Char :=
  if 65 ≤ c.toNat ∧ c.toNat ≤ 90 then Char.ofNat (c.toNat + 32) else c

/-- Whether a key of the text names the field: equal up to the case of ASCII
letters. -/
def keyIs (key : List Char) (field : String) : Bool :=
  key.map lowerChar = field.data.map lowerChar

/-- The value under construction and the first error met: `json.Unmarshal`
goes on after an error and returns the first one. -/
abbrev Decoding (α : Type) := α × Option String

/-- A JSON value into a `string` field: a string sets it, `null` leaves it,
anything else is an error. -/
def decodeString (v : JValue) (old : String) : String × Option String :=
  match v with
  | JValue.string _ s => (String.mk s, none)
  | JValue.null => (old, none)
  | _ => (old, some "json: cannot unmarshal into Go value of type string")

/-- A JSON value into an `int` field. -/
def decodeInt (v : JValue) (old : Int) : Int × Option String :=
  match v with
  | JValue.number lit =>
    match parseInt lit with
    | some i => (i, none)
    | none => (old, some "json: cannot unmarshal number into Go value of type int")
  | JValue.null => (old, none)
  | _ => (old, some "json: cannot unmarshal into Go value of type int")

/-- A JSON value into a `time.Time` field, through `Time.UnmarshalJSON`. -/
def decodeTime (v : JValue) (old : Time) : Time × Option String :=
  match v with
  | JValue.string raw _ =>
    match parseRFC3339 raw with
    | some t => (t, none)
    | none => (old, some "parsing time: not an RFC 3339 time")
  | JValue.null => (old, none)
  | _ => (old, some "Time.UnmarshalJSON: input is not a JSON string")

/-- A JSON value into the field `Bytes *[]byte`: `null` sets the pointer to
nil; a string sets it to a pointer to the decoded bytes. -/
def decodeBytes (v : JValue) (old : Option Slice) : Option Slice × Option String :=
  match v with
  | JValue.null => (none, none)
  | JValue.string _ s =>
    match base64Decode s with
    | some b => (some (some b), none)
    | none => (some (old.getD none), some "illegal base64 data")
  | _ => (some (old.getD none), some "json: cannot unmarshal into Go value of type []uint8")

/-- The members of an object into the struct with the one field `Bytes`. -/
def decodeCaptureMembers : List (List Char × JValue) → Decoding (Option Slice) →
    Decoding (Option Slice)
  | [], d => d
  | (key, v) :: ms, d =>
    if keyIs key "Bytes" then
      let r := decodeBytes v d.1
      decodeCaptureMembers ms (r.1, d.2.orElse (fun _ => r.2))
    else decodeCaptureMembers ms d

/-- A JSON value into a field `*TrafficIngress` or `*TrafficEgress`, seen as
its `Bytes` when the pointer is not nil: `null` sets the pointer to nil; an
object is decoded into the struct the pointer points to, a new one for a nil
pointer. -/
def decodeCapture (v : JValue) (old : Option (Option Slice)) :
    Option (Option Slice) × Option String :=
  match v with
  | JValue.null => (none, none)
  | JValue.object ms =>
    let r := decodeCaptureMembers ms (old.getD none, none)
    (some r.1, r.2)
  | _ => (some (old.getD none), some "json: cannot unmarshal into Go value of type storage.TrafficIngress")

/-- One member of the object into the trace. -/
def decodeMember (key : List Char) (v : JValue) (d : Decoding TrafficTrace) :
    Decoding TrafficTrace :=
  let t := d.1
  if keyIs key "ID" then
    let r := decodeString v t.ID
    ({ t with ID := r.1 }, d.2.orElse (fun _ => r.2))
  else if keyIs key "Start" then
    let r := decodeTime v t.Start
    ({ t with Start := r.1 }, d.2.orElse (fun _ => r.2))
  else if keyIs key "End" then
    let r := decodeTime v t.End
    ({ t with End := r.1 }, d.2.orElse (fun _ => r.2))
  else if keyIs key "HttpStatus" then
    let r := decodeInt v t.HttpStatus
    ({ t with HttpStatus := r.1 }, d.2.orElse (fun _ => r.2))
  else if keyIs key "HttpMethod" then
    let r := decodeString v t.HttpMethod
    ({ t with HttpMethod := r.1 }, d.2.orElse (fun _ => r.2))
  else if keyIs key "URI" then
    let r := decodeString v t.URI
    ({ t with URI := r.1 }, d.2.orElse (fun _ => r.2))
  else if keyIs key "Length" then
    let r := decodeInt v t.Length
    ({ t with Length := r.1 }, d.2.orElse (fun _ => r.2))
  else if keyIs key "Ingress" then
    let r := decodeCapture v (t.Ingress.map (fun i => i.Bytes))
    ({ t with Ingress := r.1.map (fun b => { Bytes := b }) }, d.2.orElse (fun _ => r.2))
  else if keyIs key "Egress" then
    let r := decodeCapture v (t.Egress.map (fun e => e.Bytes))
    ({ t with Egress := r.1.map (fun b => { Bytes := b }) }, d.2.orElse (fun _ => r.2))
  else d

/-- The members of the object into the trace, in the order of the text. -/
def decodeMembers : List (List Char × JValue) → Decoding TrafficTrace → Decoding TrafficTrace
  | [], d => d
  | (key, v) :: ms, d => decodeMembers ms (decodeMember key v d)

/-- `json.Unmarshal(data, &trace)`: a text that is not JSON is an error and
leaves the trace as it is; `null` leaves it as it is; an object is decoded
member by member, going on after an error and returning the first one. -/
def goUnmarshal (data : Bytes) (trace : TrafficTrace) : TrafficTrace × Option String :=
  match parseJSON (utf8Decode data) with
  | none => (trace, some "invalid character")
  | some JValue.null => (trace, none)
  | some (JValue.object ms) => decodeMembers ms (trace, none)
  | some _ => (trace, some "json: cannot unmarshal into Go value of type storage.TrafficTrace")

/-- Package `encoding/json` as the storage uses it. -/
def goJSON : JSON where
  Marshal := goMarshal
  Unmarshal := goUnmarshal

/-! ### Notions the lemmas on JSON texts are stated with -/

/-- A character a string literal holds as it is. -/
def Plain (c : Char) : Prop := c ≠ '"' ∧ c ≠ '\\' ∧ ¬ c.toNat < 0x20

/-- A text that ends a value inside an object: empty, or starting with a comma
or the closing brace. -/
def Delimited (rest : List Char) : Prop :=
  ∀ c cs, rest = c :: cs → c = ',' ∨ c = '\x7d'

/-- The parser, given at least `n` units of fuel, reads the text `text` as the
value `v`, whatever delimited text follows. -/
def Reads (n : Nat) (text : List Char) (v : JValue) : Prop :=
  ∀ fuel rest, n ≤ fuel → Delimited rest →
    parse fuel Goal.value (text ++ rest) = some (Parsed.value v, rest)

/-- A time as package `time` builds it: nanoseconds below one second. -/
def Time.WellFormed (t : Time) : Prop := t.nsec < 10 ^ 9

/-- A trace whose fields are values of their Go types: times with nanoseconds
below one second, `int` fields within 64 bits. -/
def TrafficTrace.WellFormed (t : TrafficTrace) : Prop :=
  t.Start.WellFormed ∧ t.End.WellFormed ∧
  -(2 ^ 63) ≤ t.HttpStatus ∧ t.HttpStatus < 2 ^ 63 ∧ -(2 ^ 63) ≤ t.Length ∧ t.Length < 2 ^ 63

/-- The zone of the time is a whole number of minutes from UTC. -/
def Time.WholeMinuteZone (t : Time) : Prop := t.offset % 60 = 0

/-- The pointer `Bytes` does not point to a nil slice: it is nil, or points to
a slice that is not nil. -/
def SliceNotNil (p : Option Slice) : Prop := p ≠ some none

instance (t : Time) : Decidable t.WellFormed :=
  inferInstanceAs (Decidable (t.nsec < 10 ^ 9))

instance (t : TrafficTrace) : Decidable t.WellFormed :=
  inferInstanceAs (Decidable (t.Start.WellFormed ∧ t.End.WellFormed ∧
    -(2 ^ 63) ≤ t.HttpStatus ∧ t.HttpStatus < 2 ^ 63 ∧ -(2 ^ 63) ≤ t.Length ∧ t.Length < 2 ^ 63))

instance (t : Time) : Decidable t.WholeMinuteZone :=
  inferInstanceAs (Decidable (t.offset % 60 = 0))

instance (p : Option Slice) : Decidable (SliceNotNil p) :=
  inferInstanceAs (Decidable (p ≠ some none))

/-- Whether the value of a stored pair decodes: `json.Unmarshal` into a zero
trace returns a nil error. -/
def decodes (json : JSON) (e : Bytes × Bytes) : Bool :=
  (json.Unmarshal e.2 TrafficTrace.zero).2.isNone

/-- The trace `json.Unmarshal` leaves when given the value of a stored pair and
a zero trace. -/
def decoded (json : JSON) (e : Bytes × Bytes) : TrafficTrace :=
  (json.Unmarshal e.2 TrafficTrace.zero).1

/-! ## Concrete inputs used in the examples -/

/-- A small codec used where a theorem is applied to a concrete input.  It
stands in the place of `encoding/json` there and is not a model of it: a value
is one flag byte (1 when ingress and egress bytes are present, both empty; 0
when both pointers are nil) followed by the bytes of the ID.  Empty input is an
error, like for `json.Unmarshal`. -/
def sampleJSON : JSON where
  Marshal := fun t => Except.ok ((if t.Ingress.isSome then 1 else 0) :: goBytes t.ID)
  Unmarshal := fun data trace =>
    match data with
    | [] => (trace, some "unexpected end of JSON input")
    | flag :: rest =>
      let id := String.mk (rest.map (fun b => Char.ofNat b.toNat))
      if flag = 0 then ({ trace with ID := id, Ingress := none, Egress := none }, none)
      else if flag = 1 then
        ({ trace with ID := id, Ingress := some { Bytes := some (some []) },
                      Egress := some { Bytes := some (some []) } }, none)
      else (trace, some "invalid character looking for beginning of value")

/-- An output with nothing written and nothing logged. -/
def Out.empty : Out := { w := [], log := [] }

/-- A store with no trace. -/
def emptyStorage : TrafficStorage := { nature := STORAGE_ONDISK, db := [] }

/-- A clock reading on a whole second: 2016-01-01T00:00:00Z. -/
def newYear : Time := { sec := 1451606400, nsec := 0, offset := 0 }

/-- The clock reading half a second after `newYear`. -/
def newYearAndHalf : Time := { sec := 1451606400, nsec := 500000000, offset := 0 }

/-- A store of four pairs; the value under `t3` does not decode. -/
def sampleStorage : TrafficStorage :=
  { nature := STORAGE_ONDISK,
    db := [(goBytes "t1", 0 :: goBytes "t1"), (goBytes "t2", 1 :: goBytes "t2"),
           (goBytes "t3", []), (goBytes "t4", 0 :: goBytes "t4")] }

/-- A store of two pairs whose values decode: the trace under `t1` has nil
ingress and egress, the trace under `t2` carries both. -/
def readableStorage : TrafficStorage :=
  { nature := STORAGE_ONDISK,
    db := [(goBytes "t1", 0 :: goBytes "t1"), (goBytes "t2", 1 :: goBytes "t2")] }

/-- A store of one pair whose value decodes. -/
def oneTraceStorage : TrafficStorage :=
  { nature := STORAGE_ONDISK, db := [(goBytes "t1", 0 :: goBytes "t1")] }

/-- A store of one pair whose value does not decode. -/
def oneBadValueStorage : TrafficStorage :=
  { nature := STORAGE_ONDISK, db := [(goBytes "t1", [])] }

/-- A trace with ID `t1` and every other field zero. -/
def traceT1 : TrafficTrace := { TrafficTrace.zero with ID := "t1" }

/-- A trace with ID `t2` that carries ingress and egress bytes, both empty. -/
def traceT2 : TrafficTrace :=
  { TrafficTrace.zero with
    ID := "t2"
    Ingress := some { Bytes := some (some []) }
    Egress := some { Bytes := some (some []) } }

/-- A trace with ID `t4` and every other field zero. -/
def traceT4 : TrafficTrace := { TrafficTrace.zero with ID := "t4" }

/-- The world before any call: an empty buffer behind the wrapped writer. -/
def freshWorld : World Bytes := { under := [], calls := [], log := [] }

/-- A trace with every field set: a fraction of a second in the ID, an end time
in the zone +01:00, a URI with characters the encoder escapes and one outside
ASCII, five ingress bytes, and egress bytes that are empty but not nil. -/
def sampleTrace : TrafficTrace :=
  { ID := "2016-01-01T00:00:00.5Z"
    Start := newYearAndHalf
    End := { sec := 1451606401, nsec := 120000000, offset := 3600 }
    HttpStatus := 200
    HttpMethod := "GET"
    URI := "/a?b=<c>&d=\"é\""
    Length := 5
    Ingress := some { Bytes := some (some (goBytes "hello")) }
    Egress := some { Bytes := some (some []) } }

/-- The bytes `json.Marshal` writes for `sampleTrace`. -/
def sampleEncoding : Bytes :=
  goBytes ("\x7b\"ID\":\"2016-01-01T00:00:00.5Z\",\"Start\":\"2016-01-01T00:00:00.5Z\"," ++
    "\"End\":\"2016-01-01T01:00:01.12+01:00\",\"HttpStatus\":200,\"HttpMethod\":\"GET\"," ++
    "\"URI\":\"/a?b=\\u003cc\\u003e\\u0026d=\\\"é\\\"\",\"Length\":5," ++
    "\"Ingress\":\x7b\"Bytes\":\"aGVsbG8=\"\x7d,\"Egress\":\x7b\"Bytes\":\"\"\x7d\x7d")

/-- A store of two pairs: an older key, and under the ID of `sampleTrace` a
value that is not the encoding of `sampleTrace`. -/
def staleStorage : TrafficStorage :=
  { nature := STORAGE_ONDISK,
    db := [(goBytes "2015-12-31T23:59:59Z", goBytes "old"), (goBytes sampleTrace.ID, [0])] }

/-- A trace with ID `t1` whose ingress is present with `Bytes` pointing to a
nil slice. -/
def nilSliceTrace : TrafficTrace :=
  { TrafficTrace.zero with
    ID := "t1"
    Ingress := some { Bytes := some none } }

/-- A trace with ID `t1` whose start time is shown in a zone 90 seconds east of
UTC. -/
def oddZoneTrace : TrafficTrace :=
  { TrafficTrace.zero with
    ID := "t1"
    Start := { sec := 0, nsec := 0, offset := 90 } }

/-! ## capture.go: theorems -/

/-- Every call of `Write` leaves the caller's writer as it was. -/
theorem captureWriter.Write_receiver_unchanged {σ : Type} (rw : ResponseWriter σ)
    (w : captureWriter) (b : Bytes) (s : World σ) :
    (captureWriter.Write rw w b s).2.1 = w := rfl

/-- A sequence of `Write` calls leaves the caller's writer as it was. -/
theorem writeAll_receiver_unchanged {σ : Type} (rw : ResponseWriter σ) (w : captureWriter)
    (bs : List Bytes) (s : World σ) : (writeAll rw w bs s).2.1 = w := by
  induction bs generalizing s with
  | nil => rfl
  | cons b bs ih =>
    simp only [writeAll, captureWriter.Write]
    exact ih _

/-- Whatever the wrapped writer and the chunks, `Size()` on a writer from
`NewCaptureWriter` is 0 after the `Write` calls. -/
theorem Size_after_writes_zero {σ : Type} (rw : ResponseWriter σ) (path : String)
    (bs : List Bytes) (s : World σ) :
    (writeAll rw (NewCaptureWriter path) bs s).2.1.Size = 0 := by
  rw [writeAll_receiver_unchanged]
  rfl

/-- C4 (the code at the failing input): three `Write` calls with chunks of 2, 1
and 3 bytes, on a writer from `NewCaptureWriter` whose wrapped writer takes
every byte, return 2, 1 and 3, and the wrapped writer holds the six bytes; the
body of the first call sets `size` of its receiver copy to 2; `Size()` on the
writer afterwards is 0, not 6. -/
theorem Size_after_three_writes :
    (writeAll bufferWriter (NewCaptureWriter "/") [[1, 2], [3], [4, 5, 6]] freshWorld).1
      = [2, 1, 3] ∧
    (writeAll bufferWriter (NewCaptureWriter "/") [[1, 2], [3], [4, 5, 6]] freshWorld).2.2.under
      = [1, 2, 3, 4, 5, 6] ∧
    (captureWriter.WriteBody bufferWriter (NewCaptureWriter "/") [1, 2] freshWorld).2.1.size = 2 ∧
    (writeAll bufferWriter (NewCaptureWriter "/") [[1, 2], [3], [4, 5, 6]] freshWorld).2.1.Size
      = 0 := by
  decide

/-- C5: `Write(b)` calls the wrapped writer's `Write` once, with `b`: the calls
the wrapped writer has received grow by exactly `Write b`, its state becomes
the one its own `Write` leaves, and the `(int, error)` pair returned to the
caller is the pair the wrapped writer returned, whatever the error. -/
theorem captureWriter.Write_transparent {σ : Type} (rw : ResponseWriter σ)
    (w : captureWriter) (b : Bytes) (s : World σ) :
    (captureWriter.Write rw w b s).1 = (rw.Write s.under b).2 ∧
    (captureWriter.Write rw w b s).2.2.calls = s.calls ++ [Call.Write b] ∧
    (captureWriter.Write rw w b s).2.2.under = (rw.Write s.under b).1 := by
  refine ⟨rfl, ?_, ?_⟩ <;>
    · simp only [captureWriter.Write, captureWriter.WriteBody, World.logPrintf]
      cases (rw.Write s.under b).2.2 <;> rfl

/-- On a wrapped writer whose `Write` fails, the caller gets that result, zero
bytes and the error, and the failure is logged. -/
theorem Write_on_broken_writer :
    (captureWriter.Write brokenWriter (NewCaptureWriter "/") [1, 2]
        { under := (), calls := [], log := [] }).1 = (0, some "write: broken pipe") ∧
    (captureWriter.Write brokenWriter (NewCaptureWriter "/") [1, 2]
        { under := (), calls := [], log := [] }).2.2.calls = [Call.Write [1, 2]] ∧
    (captureWriter.Write brokenWriter (NewCaptureWriter "/") [1, 2]
        { under := (), calls := [], log := [] }).2.2.log.length = 2 := by
  decide

/-- C6 (the code at the failing input): `WriteHeader(404)` on a fresh writer
(state `NOT_STARTED`) forwards 404 to the wrapped writer; the body sets
`httpStatus` 404 and state `HEADERS` on its receiver copy; the writer itself
stays in state `NOT_STARTED` and its `HttpStatus()` is 200. -/
theorem WriteHeader_404_not_recorded :
    (captureWriter.WriteHeader bufferWriter (NewCaptureWriter "/") 404 freshWorld).2.calls
      = [Call.WriteHeader 404] ∧
    (captureWriter.WriteHeaderBody bufferWriter (NewCaptureWriter "/") 404 freshWorld).1.httpStatus
      = 404 ∧
    (captureWriter.WriteHeaderBody bufferWriter (NewCaptureWriter "/") 404 freshWorld).1.state
      = HEADERS ∧
    (captureWriter.WriteHeader bufferWriter (NewCaptureWriter "/") 404 freshWorld).1.state
      = NOT_STARTED ∧
    (captureWriter.WriteHeader bufferWriter (NewCaptureWriter "/") 404 freshWorld).1.HttpStatus
      = 200 := by
  decide

/-! ## storage/traffic_storage.go: theorems -/

/-! ### Bucket order -/

theorem bytesLess_trans : ∀ (a b c : Bytes), bytesLess a b = true → bytesLess b c = true →
    bytesLess a c = true := by
  intro a
  induction a with
  | nil =>
    intro b c hab hbc
    cases b with
    | nil => simp [bytesLess] at hab
    | cons y ys =>
      cases c with
      | nil => simp [bytesLess] at hbc
      | cons z zs => simp [bytesLess]
  | cons x xs ih =>
    intro b c hab hbc
    cases b with
    | nil => simp [bytesLess] at hab
    | cons y ys =>
      cases c with
      | nil => simp [bytesLess] at hbc
      | cons z zs =>
        simp only [bytesLess] at hab hbc ⊢
        by_cases hxy : x < y
        · by_cases hyz : y < z
          · simp [UInt8.lt_trans hxy hyz]
          · by_cases hzy : z < y
            · simp [hyz, hzy] at hbc
            · have : y = z := UInt8.le_antisymm (UInt8.not_lt.mp hzy) (UInt8.not_lt.mp hyz)
              subst this
              simp [hxy]
        · by_cases hyx : y < x
          · simp [hxy, hyx] at hab
          · have : x = y := UInt8.le_antisymm (UInt8.not_lt.mp hyx) (UInt8.not_lt.mp hxy)
            subst this
            simp only [hxy, if_false] at hab
            by_cases hxz : x < z
            · simp [hxz]
            · by_cases hzx : z < x
              · simp [hxz, hzx] at hbc
              · simp only [hxz, hzx, if_false] at hbc ⊢
                exact ih ys zs hab hbc

theorem bytesLess_total : ∀ (a b : Bytes), bytesLess a b = false → a ≠ b →
    bytesLess b a = true := by
  intro a
  induction a with
  | nil =>
    intro b hab hne
    cases b with
    | nil => exact absurd rfl hne
    | cons y ys => simp [bytesLess] at hab
  | cons x xs ih =>
    intro b hab hne
    cases b with
    | nil => simp [bytesLess]
    | cons y ys =>
      simp only [bytesLess] at hab ⊢
      by_cases hxy : x < y
      · simp [hxy] at hab
      · by_cases hyx : y < x
        · simp [hyx]
        · have : x = y := UInt8.le_antisymm (UInt8.not_lt.mp hyx) (UInt8.not_lt.mp hxy)
          subst this
          simp only [hxy, if_false] at hab ⊢
          exact ih ys hab (fun h => hne (by rw [h]))

theorem Bucket.mem_insert (b : Bucket) (key value : Bytes) (e : Bytes × Bytes)
    (he : e ∈ Bucket.insert b key value) : e = (key, value) ∨ e ∈ b := by
  induction b with
  | nil => left; simpa [Bucket.insert] using he
  | cons f rest ih =>
    obtain ⟨k, v⟩ := f
    unfold Bucket.insert at he
    split at he
    · rcases List.mem_cons.mp he with h | h
      · left; exact h
      · right; exact h
    · split at he
      · rcases List.mem_cons.mp he with h | h
        · left; exact h
        · right; exact List.mem_cons_of_mem _ h
      · rcases List.mem_cons.mp he with h | h
        · right; rw [h]; exact List.mem_cons_self _ _
        · rcases ih h with h | h
          · left; exact h
          · right; exact List.mem_cons_of_mem _ h

/-- Setting a key keeps the keys of the bucket strictly ascending. -/
theorem Bucket.insert_Ordered (b : Bucket) (key value : Bytes) (h : b.Ordered) :
    (Bucket.insert b key value).Ordered := by
  induction b with
  | nil => simp [Bucket.insert, Bucket.Ordered]
  | cons f rest ih =>
    obtain ⟨k, v⟩ := f
    unfold Bucket.Ordered at h ih ⊢
    rw [List.pairwise_cons] at h
    unfold Bucket.insert
    split
    · rename_i hlt
      refine List.pairwise_cons.mpr ⟨?_, List.pairwise_cons.mpr h⟩
      intro e he
      rcases List.mem_cons.mp he with rfl | he
      · exact hlt
      · exact bytesLess_trans _ _ _ hlt (h.1 e he)
    · split
      · rename_i _ hk
        subst hk
        exact List.pairwise_cons.mpr h
      · rename_i hnlt hk
        refine List.pairwise_cons.mpr ⟨?_, ih h.2⟩
        intro e he
        rcases Bucket.mem_insert rest key value e he with rfl | he
        · exact bytesLess_total _ _ (by simpa using hnlt) (fun h => hk h.symm)
        · exact h.1 e he

theorem Bucket.Get_insert_same (b : Bucket) (key value : Bytes) :
    Bucket.Get (Bucket.insert b key value) key = some value := by
  induction b with
  | nil => simp [Bucket.insert, Bucket.Get]
  | cons e rest ih =>
    obtain ⟨k, v⟩ := e
    unfold Bucket.insert
    split
    · simp [Bucket.Get]
    · split
      · simp [Bucket.Get]
      · rename_i _ hk
        simp [Bucket.Get, hk, ih]

theorem Bucket.Get_insert_other (b : Bucket) (key value other : Bytes) (h : other ≠ key) :
    Bucket.Get (Bucket.insert b key value) other = Bucket.Get b other := by
  induction b with
  | nil => simp [Bucket.insert, Bucket.Get, Ne.symm h]
  | cons e rest ih =>
    obtain ⟨k, v⟩ := e
    unfold Bucket.insert
    split
    · simp [Bucket.Get, Ne.symm h]
    · split
      · rename_i _ hk
        subst hk
        simp [Bucket.Get, Ne.symm h]
      · by_cases hko : k = other
        · simp [Bucket.Get, hko]
        · simp [Bucket.Get, hko, ih]

theorem pairwise_getLast {α : Type} (R : α → α → Prop) :
    ∀ (l : List α) (h : l ≠ []), l.Pairwise R → ∀ e ∈ l, e = l.getLast h ∨ R e (l.getLast h) := by
  intro l
  induction l with
  | nil => intro h; exact absurd rfl h
  | cons a t ih =>
    intro h hp e he
    rw [List.pairwise_cons] at hp
    by_cases ht : t = []
    · subst ht
      left
      simpa using he
    · rw [List.getLast_cons ht]
      rcases List.mem_cons.mp he with rfl | he
      · right; exact hp.1 _ (List.getLast_mem ht)
      · exact ih ht hp.2 e he

/-! ### CreateTrace -/

/-- C1 (the code at the failing input): two `CreateTrace` calls that observe
the same clock reading return the same ID, `2016-01-01T00:00:00Z`. -/
theorem CreateTraces_same_reading :
    (emptyStorage.CreateTraces [newYear, newYear]).map (fun t => t.ID)
      = ["2016-01-01T00:00:00Z", "2016-01-01T00:00:00Z"] ∧
    ¬ ((emptyStorage.CreateTraces [newYear, newYear]).map (fun t => t.ID)).Nodup := by
  decide

/-- C2 (the code at the failing input): the reading 2016-01-01T00:00:00Z is
before the reading half a second later, yet the ID of the later one,
`2016-01-01T00:00:00.5Z`, is smaller byte-wise than the ID of the earlier one,
`2016-01-01T00:00:00Z`. -/
theorem CreateTrace_later_reading_smaller_ID :
    newYear.Before newYearAndHalf ∧
    (emptyStorage.CreateTrace newYear).1.ID = "2016-01-01T00:00:00Z" ∧
    (emptyStorage.CreateTrace newYearAndHalf).1.ID = "2016-01-01T00:00:00.5Z" ∧
    bytesLess (goBytes (emptyStorage.CreateTrace newYearAndHalf).1.ID)
      (goBytes (emptyStorage.CreateTrace newYear).1.ID) = true ∧
    bytesLess (goBytes (emptyStorage.CreateTrace newYear).1.ID)
      (goBytes (emptyStorage.CreateTrace newYearAndHalf).1.ID) = false := by
  decide

/-! ### DisplayLatestTraces -/

theorem latestLoop_spec (json : JSON) (route : String) (max : Int) (l : List (Bytes × Bytes)) :
    ∀ (count : Int) (out : Out), count < max →
      (latestLoop json route max l count out).1 =
        count + (((l.filter (decodes json)).take (max - count).toNat).length : Int) ∧
      (latestLoop json route max l count out).2.w =
        out.w ++ ((l.filter (decodes json)).take (max - count).toNat).map
          (fun e => listingLine route (decoded json e)) := by
  induction l with
  | nil => intro count out _; simp [latestLoop]
  | cons e l ih =>
    intro count out h
    obtain ⟨k, bytes⟩ := e
    obtain ⟨m, hm⟩ : ∃ m, (max - count).toNat = m + 1 := ⟨(max - count).toNat - 1, by omega⟩
    cases hU : json.Unmarshal bytes TrafficTrace.zero with
    | mk tr err =>
      cases err with
      | some e1 =>
        have hd : decodes json (k, bytes) = false := by simp [decodes, hU]
        have := ih count
          (out.logPrintf "[DEBUG] STORAGE json decode failed for bytes %s\n" [Arg.bytes bytes]) h
        simp only [latestLoop, hU, List.filter_cons, hd]
        simpa [Out.logPrintf] using this
      | none =>
        have hd : decodes json (k, bytes) = true := by simp [decodes, hU]
        have hdec : decoded json (k, bytes) = tr := by simp [decoded, hU]
        simp only [latestLoop, hU, List.filter_cons, hd, hm, if_true, List.take_succ_cons,
          List.length_cons, List.map_cons, hdec]
        by_cases hc : count + 1 ≥ max
        · have hm0 : m = 0 := by omega
          subst hm0
          simp [hc, Out.Fprintf, listingLine]
        · have hlt : count + 1 < max := by omega
          have hm2 : (max - (count + 1)).toNat = m := by omega
          have := ih (count + 1)
            (out.Fprintf (listingLine route tr).format (listingLine route tr).args) hlt
          rw [hm2] at this
          simp only [hc, if_false]
          refine ⟨?_, ?_⟩
          · rw [this.1]; push_cast; ring
          · rw [this.2]; simp [Out.Fprintf, listingLine]

/-- C3, as stated, fails twice.  With `max = 0` on a store of one pair that
decodes, the call writes one listing line and returns 1, where `min(max, total)`
is 0.  With `max = 1` on a store of one pair that does not decode, the call
writes no listing line and returns 0, where `min(max, total)` is 1. -/
theorem DisplayLatestTraces_count_counterexample :
    (oneTraceStorage.DisplayLatestTraces sampleJSON Out.empty "/traffic" 0).1 = 1 ∧
    (oneTraceStorage.DisplayLatestTraces sampleJSON Out.empty "/traffic" 0).2.w.length = 2 ∧
    min (0 : Int) oneTraceStorage.db.KeyN = 0 ∧
    (oneBadValueStorage.DisplayLatestTraces sampleJSON Out.empty "/traffic" 1).1 = 0 ∧
    (oneBadValueStorage.DisplayLatestTraces sampleJSON Out.empty "/traffic" 1).2.w
      = [{ format := "<p>%v/%v traces</p>\n", args := [Arg.int 0, Arg.int 1] }] ∧
    min (1 : Int) oneBadValueStorage.db.KeyN = 1 := by
  decide

/-- C3, amended: for every store and every `max ≥ 1`, `DisplayLatestTraces`
writes one listing line per record for exactly `min(max, d)` records and
returns that number, where `d` is the number of stored values that decode; the
records listed are the decodable ones from the largest key downwards (`shown`
is a prefix of `all`, whose keys are strictly descending); the summary line
follows, with the count and the number of stored keys, or the line
`No traffic so far` for a store without keys. -/
theorem DisplayLatestTraces_latest (json : JSON) (storage : TrafficStorage) (out : Out)
    (route : String) (max : Int) (hmax : 1 ≤ max) (hord : storage.db.Ordered) :
    let all := (storage.db.filter (decodes json)).reverse
    let shown := all.take max.toNat
    let r := storage.DisplayLatestTraces json out route max
    r.1 = (shown.length : Int) ∧
    (shown.length : Int) = min max (all.length : Int) ∧
    r.2.w = out.w ++ shown.map (fun e => listingLine route (decoded json e)) ++
      [if storage.db.KeyN = 0 then { format := "<p>No traffic so far</p>\n", args := [] }
       else { format := "<p>%v/%v traces</p>\n",
              args := [Arg.int r.1, Arg.int storage.db.KeyN] }] ∧
    (all.map Prod.fst).Pairwise (fun a b => bytesLess b a = true) := by
  intro all shown r
  have hloop := latestLoop_spec json route max storage.db.reverse 0
    (out.logPrintf "[DEBUG] STORAGE fetching last traces, %d max\n" [Arg.int max]) (by omega)
  rw [List.filter_reverse] at hloop
  simp only [sub_zero, zero_add] at hloop
  have hr1 : r.1 = (shown.length : Int) := by
    show (storage.DisplayLatestTraces json out route max).1 = _
    unfold TrafficStorage.DisplayLatestTraces
    simp only
    split <;> exact hloop.1
  refine ⟨hr1, ?_, ?_, ?_⟩
  · show ((all.take max.toNat).length : Int) = _
    rw [List.length_take]
    have : ((max.toNat : Nat) : Int) = max := Int.toNat_of_nonneg (by omega)
    omega
  · show (storage.DisplayLatestTraces json out route max).2.w = _
    have hr1b : (storage.DisplayLatestTraces json out route max).1 = (shown.length : Int) := hr1
    rw [hr1b]
    unfold TrafficStorage.DisplayLatestTraces
    simp only
    have hw1 : (out.logPrintf "[DEBUG] STORAGE fetching last traces, %d max\n" [Arg.int max]).w
        = out.w := rfl
    split
    · rename_i h0
      simp only [h0, if_true, Out.Fprintf, hloop.2, hw1]
    · rename_i h0
      simp only [h0, if_false, Out.Fprintf, hloop.2, hloop.1, hw1]
  · show (((storage.db.filter (decodes json)).reverse).map Prod.fst).Pairwise _
    rw [List.pairwise_map, List.pairwise_reverse]
    exact List.Pairwise.sublist (List.filter_sublist _) hord

/-- C3, amended, on a store of four pairs, three of which decode, with
`max = 2`. -/
theorem DisplayLatestTraces_latest_witness :
    (1 : Int) ≤ 2 ∧ sampleStorage.db.Ordered ∧
    (let all := (sampleStorage.db.filter (decodes sampleJSON)).reverse
     let shown := all.take (2 : Int).toNat
     let r := sampleStorage.DisplayLatestTraces sampleJSON Out.empty "/traffic" 2
     r.1 = (shown.length : Int) ∧
     (shown.length : Int) = min 2 (all.length : Int) ∧
     r.2.w = Out.empty.w ++ shown.map (fun e => listingLine "/traffic" (decoded sampleJSON e)) ++
       [if sampleStorage.db.KeyN = 0 then { format := "<p>No traffic so far</p>\n", args := [] }
        else { format := "<p>%v/%v traces</p>\n",
               args := [Arg.int r.1, Arg.int sampleStorage.db.KeyN] }] ∧
     (all.map Prod.fst).Pairwise (fun a b => bytesLess b a = true)) :=
  ⟨by decide, by decide,
    DisplayLatestTraces_latest sampleJSON sampleStorage Out.empty "/traffic" 2 (by decide)
      (by decide)⟩

/-- On the store of four pairs with `max = 2`, the call returns 2 and lists the
traces under `t4` and `t2`, in that order; with `max = 7` it returns 3. -/
theorem DisplayLatestTraces_sample :
    (sampleStorage.DisplayLatestTraces sampleJSON Out.empty "/traffic" 2).1 = 2 ∧
    (sampleStorage.DisplayLatestTraces sampleJSON Out.empty "/traffic" 2).2.w =
      [listingLine "/traffic" traceT4, listingLine "/traffic" traceT2,
       { format := "<p>%v/%v traces</p>\n", args := [Arg.int 2, Arg.int 4] }] ∧
    (sampleStorage.DisplayLatestTraces sampleJSON Out.empty "/traffic" 7).1 = 3 := by
  decide

/-! ### Rendering, DisplayFirstTrace and DisplayLastTrace -/

/-- C7 (the code at the failing input): on a trace whose `Ingress` is nil, on
one whose `Ingress.Bytes` is nil and on one whose `Egress` is nil,
`displayTraceAsJSON` and `displayTraceAsHTML` end in a nil dereference panic;
nothing is written for the absent field (eight writes before an absent
ingress, nine before an absent egress). -/
theorem display_absent_ingress_panics :
    (displayTraceAsJSON Out.empty TrafficTrace.zero).2 = nilDereference ∧
    (displayTraceAsHTML Out.empty TrafficTrace.zero).2 = nilDereference ∧
    (displayTraceAsJSON Out.empty
      { TrafficTrace.zero with Ingress := some { Bytes := none } }).2 = nilDereference ∧
    (displayTraceAsHTML Out.empty
      { TrafficTrace.zero with Ingress := some { Bytes := none } }).2 = nilDereference ∧
    (displayTraceAsJSON Out.empty
      { TrafficTrace.zero with Ingress := some { Bytes := some (some []) } }).2 = nilDereference ∧
    (displayTraceAsHTML Out.empty
      { TrafficTrace.zero with Ingress := some { Bytes := some (some []) } }).2 = nilDereference ∧
    (displayTraceAsJSON Out.empty TrafficTrace.zero).1.w.length = 8 ∧
    (displayTraceAsHTML Out.empty TrafficTrace.zero).1.w.length = 8 ∧
    (displayTraceAsJSON Out.empty
      { TrafficTrace.zero with Ingress := some { Bytes := some (some []) } }).1.w.length = 9 ∧
    (displayTraceAsHTML Out.empty
      { TrafficTrace.zero with Ingress := some { Bytes := some (some []) } }).1.w.length = 9 := by
  decide

/-- C8 (the code at the failing input): on the empty store, whatever the
codec, `DisplayFirstTrace` and `DisplayLastTrace` write the marker
`<p>No traffic capture found</p>`, then go on to render the zero trace: eight
more writes follow the marker, and the call ends in a nil dereference panic. -/
theorem Display_empty_store (json : JSON) :
    (emptyStorage.DisplayFirstTrace json Out.empty "/traffic").2 = nilDereference ∧
    (emptyStorage.DisplayLastTrace json Out.empty "/traffic").2 = nilDereference ∧
    (emptyStorage.DisplayFirstTrace json Out.empty "/traffic").1.w =
      { format := "<p>No traffic capture found</p>", args := [] } ::
        (displayTraceAsJSON Out.empty TrafficTrace.zero).1.w ∧
    (emptyStorage.DisplayLastTrace json Out.empty "/traffic").1.w =
      { format := "<p>No traffic capture found</p>", args := [] } ::
        (displayTraceAsJSON Out.empty TrafficTrace.zero).1.w ∧
    (emptyStorage.DisplayFirstTrace json Out.empty "/traffic").1.w.length = 9 ∧
    (emptyStorage.DisplayLastTrace json Out.empty "/traffic").1.w.length = 9 :=
  ⟨rfl, rfl, rfl, rfl, rfl, rfl⟩

theorem displayTraceAsJSON_appends (out : Out) (trace : TrafficTrace) :
    (displayTraceAsJSON out trace).1.w = out.w ++ (displayTraceAsJSON Out.empty trace).1.w ∧
    (displayTraceAsJSON out trace).1.log = out.log ∧
    (displayTraceAsJSON out trace).2 = (displayTraceAsJSON Out.empty trace).2 := by
  rcases trace with ⟨id, st, en, hs, hm, uri, len, _ | ⟨_ | ib⟩, _ | ⟨_ | eb⟩⟩ <;>
    simp [displayTraceAsJSON, Out.Fprintf, Out.empty]

theorem viewTrace_found (json : JSON) (e : Bytes × Bytes) (which : String) (out : Out)
    (h : decodes json e = true) :
    viewTrace json (some e) which TrafficTrace.zero out = (decoded json e, out) := by
  obtain ⟨k, bytes⟩ := e
  cases hU : json.Unmarshal bytes TrafficTrace.zero with
  | mk tr err =>
    cases err with
    | none => simp [viewTrace, decoded, hU]
    | some e1 => simp [decodes, hU] at h

/-- Which record is rendered: on a non-empty store whose values all decode,
there are a pair `lo` with the smallest key and a pair `hi` with the largest
key such that `DisplayFirstTrace` adds to the writer exactly what
`displayTraceAsJSON` writes for the trace decoded from `lo`, and ends as that
rendering ends, and `DisplayLastTrace` does the same with `hi`. -/
theorem Display_first_last (json : JSON) (storage : TrafficStorage) (out : Out) (route : String)
    (hne : storage.db ≠ []) (hord : storage.db.Ordered)
    (hdec : ∀ e ∈ storage.db, decodes json e = true) :
    ∃ lo ∈ storage.db, ∃ hi ∈ storage.db,
      (∀ e ∈ storage.db, e = lo ∨ bytesLess lo.1 e.1 = true) ∧
      (∀ e ∈ storage.db, e = hi ∨ bytesLess e.1 hi.1 = true) ∧
      (storage.DisplayFirstTrace json out route).1.w =
        out.w ++ (displayTraceAsJSON Out.empty (decoded json lo)).1.w ∧
      (storage.DisplayFirstTrace json out route).2 =
        (displayTraceAsJSON Out.empty (decoded json lo)).2 ∧
      (storage.DisplayLastTrace json out route).1.w =
        out.w ++ (displayTraceAsJSON Out.empty (decoded json hi)).1.w ∧
      (storage.DisplayLastTrace json out route).2 =
        (displayTraceAsJSON Out.empty (decoded json hi)).2 := by
  obtain ⟨nature, db⟩ := storage
  simp only at hne hord hdec ⊢
  cases db with
  | nil => exact absurd rfl hne
  | cons lo rest =>
    have hlast : Bucket.Last (lo :: rest) = some ((lo :: rest).getLast hne) :=
      List.getLast?_eq_getLast _ hne
    refine ⟨lo, List.mem_cons_self _ _, (lo :: rest).getLast hne, List.getLast_mem hne, ?_, ?_, ?_⟩
    · intro e he
      rcases List.mem_cons.mp he with rfl | he
      · left; rfl
      · right; exact (List.pairwise_cons.mp hord).1 e he
    · exact pairwise_getLast _ _ hne hord
    · have h1 := viewTrace_found json lo "first"
        (out.logPrintf "[DEBUG] STORAGE fetching first trace\n" [])
        (hdec lo (List.mem_cons_self _ _))
      have h2 := viewTrace_found json ((lo :: rest).getLast hne) "last"
        (out.logPrintf "[DEBUG] STORAGE fetching last trace\n" [])
        (hdec _ (List.getLast_mem hne))
      simp only [TrafficStorage.DisplayFirstTrace, TrafficStorage.DisplayLastTrace, Bucket.First,
        List.head?_cons, hlast, h1, h2]
      refine ⟨?_, ?_, ?_, ?_⟩
      · exact (displayTraceAsJSON_appends _ _).1
      · exact (displayTraceAsJSON_appends _ _).2.2
      · exact (displayTraceAsJSON_appends _ _).1
      · exact (displayTraceAsJSON_appends _ _).2.2

/-- The same on a store of two pairs: the trace under the smallest key has nil
ingress and egress, the trace under the largest key carries both. -/
theorem Display_first_last_witness :
    readableStorage.db ≠ [] ∧ readableStorage.db.Ordered ∧
    (∀ e ∈ readableStorage.db, decodes sampleJSON e = true) ∧
    ∃ lo ∈ readableStorage.db, ∃ hi ∈ readableStorage.db,
      (∀ e ∈ readableStorage.db, e = lo ∨ bytesLess lo.1 e.1 = true) ∧
      (∀ e ∈ readableStorage.db, e = hi ∨ bytesLess e.1 hi.1 = true) ∧
      (readableStorage.DisplayFirstTrace sampleJSON Out.empty "/traffic").1.w =
        Out.empty.w ++ (displayTraceAsJSON Out.empty (decoded sampleJSON lo)).1.w ∧
      (readableStorage.DisplayFirstTrace sampleJSON Out.empty "/traffic").2 =
        (displayTraceAsJSON Out.empty (decoded sampleJSON lo)).2 ∧
      (readableStorage.DisplayLastTrace sampleJSON Out.empty "/traffic").1.w =
        Out.empty.w ++ (displayTraceAsJSON Out.empty (decoded sampleJSON hi)).1.w ∧
      (readableStorage.DisplayLastTrace sampleJSON Out.empty "/traffic").2 =
        (displayTraceAsJSON Out.empty (decoded sampleJSON hi)).2 :=
  ⟨by decide, by decide, by decide,
    Display_first_last sampleJSON readableStorage Out.empty "/traffic" (by decide) (by decide)
      (by decide)⟩

/-- On a trace that carries ingress and egress bytes `displayTraceAsJSON` makes
its ten writes and returns. -/
theorem displayTraceAsJSON_complete (out : Out) (trace : TrafficTrace) (ib eb : Slice)
    (hi : trace.Ingress = some { Bytes := some ib })
    (he : trace.Egress = some { Bytes := some eb }) :
    (displayTraceAsJSON out trace).2 = Exit.returned ∧
    (displayTraceAsJSON out trace).1.w.length = out.w.length + 10 := by
  rcases trace with ⟨id, st, en, hs, hm, uri, len, ing, eg⟩
  simp only at hi he
  subst hi he
  simp [displayTraceAsJSON, Out.Fprintf]

/-- C9 (the code at the failing input): on a store of one pair whose value
decodes to a trace with nil ingress and egress, `DisplayFirstTrace` and
`DisplayLastTrace` pick that trace, make the first eight writes of its
rendering, up to `ResponseLength`, and end in a nil dereference panic: the
`Incoming` and `Outgoing` fields and the closing brace are never written. -/
theorem Display_first_last_nil_ingress :
    oneTraceStorage.db ≠ [] ∧
    (∀ e ∈ oneTraceStorage.db, decodes sampleJSON e = true) ∧
    (∀ e ∈ oneTraceStorage.db, decoded sampleJSON e = traceT1) ∧
    (oneTraceStorage.DisplayFirstTrace sampleJSON Out.empty "/traffic").2 = nilDereference ∧
    (oneTraceStorage.DisplayLastTrace sampleJSON Out.empty "/traffic").2 = nilDereference ∧
    (oneTraceStorage.DisplayFirstTrace sampleJSON Out.empty "/traffic").1.w.length = 8 ∧
    (oneTraceStorage.DisplayLastTrace sampleJSON Out.empty "/traffic").1.w.length = 8 ∧
    (oneTraceStorage.DisplayFirstTrace sampleJSON Out.empty "/traffic").1.w.getLast?
      = some { format := "\"ResponseLength\" : \"%v\", ", args := [Arg.int 0] } := by
  decide

/-! ## encoding/json: the round trip

Lemmas on the model of `encoding/json`: each piece of what `json.Marshal`
writes is read back by the matching piece of `json.Unmarshal`. -/

/-! ### UTF-8 -/

theorem UInt8.ofNat_toNat_self (x : UInt8) : UInt8.ofNat x.toNat = x :=
  UInt8.toNat.inj (UInt8.toNat_ofNat_of_lt x.toNat_lt_size)

set_option maxRecDepth 100000 in
theorem byte_and3f_fin (k : Fin 256) :
    ((UInt8.ofNat k.val) &&& 0x3f ||| 0x80).toNat = k.val % 64 + 128 := by
  revert k; decide

set_option maxRecDepth 100000 in
theorem byte_and1f_fin (k : Fin 256) :
    ((UInt8.ofNat k.val) &&& 0x1f ||| 0xc0).toNat = k.val % 32 + 192 := by
  revert k; decide

set_option maxRecDepth 100000 in
theorem byte_and0f_fin (k : Fin 256) :
    ((UInt8.ofNat k.val) &&& 0x0f ||| 0xe0).toNat = k.val % 16 + 224 := by
  revert k; decide

set_option maxRecDepth 100000 in
theorem byte_and07_fin (k : Fin 256) :
    ((UInt8.ofNat k.val) &&& 0x07 ||| 0xf0).toNat = k.val % 8 + 240 := by
  revert k; decide

theorem byte_and3f (x : UInt8) : (x &&& 0x3f ||| 0x80).toNat = x.toNat % 64 + 128 := by
  have h := byte_and3f_fin ⟨x.toNat, x.toNat_lt_size⟩
  simp only [UInt8.ofNat_toNat_self] at h
  exact h

theorem byte_and1f (x : UInt8) : (x &&& 0x1f ||| 0xc0).toNat = x.toNat % 32 + 192 := by
  have h := byte_and1f_fin ⟨x.toNat, x.toNat_lt_size⟩
  simp only [UInt8.ofNat_toNat_self] at h
  exact h

theorem byte_and0f (x : UInt8) : (x &&& 0x0f ||| 0xe0).toNat = x.toNat % 16 + 224 := by
  have h := byte_and0f_fin ⟨x.toNat, x.toNat_lt_size⟩
  simp only [UInt8.ofNat_toNat_self] at h
  exact h

theorem byte_and07 (x : UInt8) : (x &&& 0x07 ||| 0xf0).toNat = x.toNat % 8 + 240 := by
  have h := byte_and07_fin ⟨x.toNat, x.toNat_lt_size⟩
  simp only [UInt8.ofNat_toNat_self] at h
  exact h

theorem UInt32.toNat_shr6 (v : UInt32) : (v >>> 6).toNat = v.toNat / 64 := by
  show (v.toBitVec >>> (UInt32.mod 6 32).toBitVec).toNat = _
  have : (UInt32.mod 6 32).toBitVec = 6#32 := by decide
  rw [this]
  simp [Nat.shiftRight_eq_div_pow]
  rfl

theorem UInt32.toNat_shr12 (v : UInt32) : (v >>> 12).toNat = v.toNat / 4096 := by
  show (v.toBitVec >>> (UInt32.mod 12 32).toBitVec).toNat = _
  have : (UInt32.mod 12 32).toBitVec = 12#32 := by decide
  rw [this]
  simp [Nat.shiftRight_eq_div_pow]
  rfl

theorem UInt32.toNat_shr18 (v : UInt32) : (v >>> 18).toNat = v.toNat / 262144 := by
  show (v.toBitVec >>> (UInt32.mod 18 32).toBitVec).toNat = _
  have : (UInt32.mod 18 32).toBitVec = 18#32 := by decide
  rw [this]
  simp [Nat.shiftRight_eq_div_pow]
  rfl

theorem UInt32.toNat_toUInt8 (v : UInt32) : v.toUInt8.toNat = v.toNat % 256 := by
  show (UInt8.ofNat v.toNat).toNat = _
  exact UInt8.toNat_ofNat _

theorem utf8DecodeRune_encode (c : Char) (rest : List UInt8) :
    utf8DecodeRune (String.utf8EncodeChar c ++ rest) = some (c, rest) := by
  have hv := c.valid
  have hn : c.val.toNat = c.toNat := rfl
  have hvalid : c.toNat < 0xD800 ∨ (0xDFFF < c.toNat ∧ c.toNat < 0x110000) := hv
  have hback : ∀ m, m = c.toNat → Char.ofNat m = c := by
    intro m hm; subst hm; exact Char.ofNat_toNat c
  unfold String.utf8EncodeChar
  simp only [UInt32.le_def, BitVec.le_def]
  have e1 : (c.val.toBitVec.toNat ≤ (127 : UInt32).toBitVec.toNat) ↔ c.toNat ≤ 127 := Iff.rfl
  have e2 : (c.val.toBitVec.toNat ≤ (2047 : UInt32).toBitVec.toNat) ↔ c.toNat ≤ 2047 := Iff.rfl
  have e3 : (c.val.toBitVec.toNat ≤ (65535 : UInt32).toBitVec.toNat) ↔ c.toNat ≤ 65535 := Iff.rfl
  by_cases h1 : c.toNat ≤ 127
  · rw [if_pos (e1.mpr h1)]
    simp only [List.cons_append, List.nil_append, utf8DecodeRune]
    have hb : c.val.toUInt8.toNat = c.toNat := by
      rw [UInt32.toNat_toUInt8, hn]; omega
    rw [hb, if_pos (by omega)]
    rw [Char.ofNat_toNat]
  · rw [if_neg (mt e1.mp h1)]
    by_cases h2 : c.toNat ≤ 2047
    · rw [if_pos (e2.mpr h2)]
      simp only [List.cons_append, List.nil_append, utf8DecodeRune]
      rw [byte_and1f, byte_and3f, UInt32.toNat_toUInt8, UInt32.toNat_toUInt8, UInt32.toNat_shr6, hn]
      rw [if_neg (by omega), if_pos (by omega), if_pos (by omega)]
      rw [hback _ (by omega)]
    · rw [if_neg (mt e2.mp h2)]
      by_cases h3 : c.toNat ≤ 65535
      · rw [if_pos (e3.mpr h3)]
        simp only [List.cons_append, List.nil_append, utf8DecodeRune]
        rw [byte_and0f, byte_and3f, byte_and3f, UInt32.toNat_toUInt8, UInt32.toNat_toUInt8,
          UInt32.toNat_toUInt8, UInt32.toNat_shr6, UInt32.toNat_shr12, hn]
        rw [if_neg (by omega), if_neg (by omega), if_pos (by omega)]
        rw [if_pos (by split_ifs <;> omega)]
        rw [hback _ (by omega)]
      · rw [if_neg (mt e3.mp h3)]
        simp only [List.cons_append, List.nil_append, utf8DecodeRune]
        rw [byte_and07, byte_and3f, byte_and3f, byte_and3f, UInt32.toNat_toUInt8,
          UInt32.toNat_toUInt8, UInt32.toNat_toUInt8, UInt32.toNat_toUInt8, UInt32.toNat_shr6,
          UInt32.toNat_shr12, UInt32.toNat_shr18, hn]
        rw [if_neg (by omega), if_neg (by omega), if_neg (by omega), if_pos (by omega)]
        rw [if_pos (by split_ifs <;> omega)]
        rw [hback _ (by omega)]

theorem utf8DecodeAux_encode (cs : List Char) :
    ∀ fuel, cs.length ≤ fuel → utf8DecodeAux fuel (utf8Encode cs) = cs := by
  induction cs with
  | nil =>
    intro fuel _
    cases fuel with
    | zero => rfl
    | succ f => simp [utf8DecodeAux, utf8Encode, utf8DecodeRune]
  | cons c cs ih =>
    intro fuel hf
    cases fuel with
    | zero => simp at hf
    | succ f =>
      have : utf8Encode (c :: cs) = String.utf8EncodeChar c ++ utf8Encode cs := by
        simp [utf8Encode]
      rw [this]
      simp only [utf8DecodeAux, utf8DecodeRune_encode]
      rw [ih f (by simpa using hf)]

theorem utf8Encode_length (cs : List Char) : cs.length ≤ (utf8Encode cs).length := by
  induction cs with
  | nil => simp [utf8Encode]
  | cons c cs ih =>
    have : utf8Encode (c :: cs) = String.utf8EncodeChar c ++ utf8Encode cs := by
      simp [utf8Encode]
    rw [this, List.length_append, String.length_utf8EncodeChar]
    have := Char.utf8Size_pos c
    simp only [List.length_cons]
    omega

/-- Decoding the UTF-8 bytes of a text gives the text back. -/
theorem utf8Decode_encode (cs : List Char) : utf8Decode (utf8Encode cs) = cs :=
  utf8DecodeAux_encode cs _ (utf8Encode_length cs)

/-! ### Decimal digits -/

theorem toNat_ofNat_small (n : Nat) (h : n < 0xD800) : (Char.ofNat n).toNat = n := by
  have hv : n.isValidChar := Or.inl h
  simp [Char.ofNat, hv, Char.ofNatAux, Char.toNat, UInt32.toNat]

theorem digitChar_toNat (d : Nat) : (digitChar d).toNat = 48 + d % 10 := by
  unfold digitChar
  exact toNat_ofNat_small _ (by omega)

theorem isDigit_digitChar (d : Nat) : isDigit (digitChar d) = true := by
  simp [isDigit, digitChar_toNat]
  omega

theorem natDigitChar_eq (d : Nat) (h : d < 10) : Nat.digitChar d = digitChar d := by
  interval_cases d <;> rfl

theorem digitsValue_append (ds rest : List Char) :
    ∀ acc, digitsValue (ds ++ rest) acc = digitsValue rest (digitsValue ds acc) := by
  induction ds with
  | nil => intro acc; rfl
  | cons c cs ih => intro acc; simp [digitsValue, ih]

theorem digitsValue_acc (ds : List Char) :
    ∀ acc, digitsValue ds acc = acc * 10 ^ ds.length + digitsValue ds 0 := by
  induction ds with
  | nil => intro acc; simp [digitsValue]
  | cons c cs ih =>
    intro acc
    simp only [digitsValue, List.length_cons]
    rw [ih (acc * 10 + (c.toNat - 48)), ih (0 * 10 + (c.toNat - 48))]
    ring

theorem digits_length (k n : Nat) : (digits k n).length = k := by
  induction k generalizing n with
  | zero => rfl
  | succ k ih => simp [digits, ih]

theorem digits_all (k n : Nat) : (digits k n).all isDigit = true := by
  induction k generalizing n with
  | zero => rfl
  | succ k ih => simp [digits, ih, isDigit_digitChar]

theorem digitsValue_digits (k n : Nat) : digitsValue (digits k n) 0 = n % 10 ^ k := by
  induction k generalizing n with
  | zero => simp [digits, digitsValue, Nat.mod_one]
  | succ k ih =>
    simp only [digits]
    rw [digitsValue_append, ih]
    simp only [digitsValue, digitChar_toNat]
    have h1 : 48 + n % 10 - 48 = n % 10 := by omega
    rw [h1, pow_succ]
    have := Nat.mod_mul_right_div_self n 10 (10 ^ k)
    have h2 : n % (10 ^ k * 10) = n % 10 + 10 * (n / 10 % 10 ^ k) := by
      rw [mul_comm (10 ^ k) 10, Nat.mod_mul]
    rw [h2]; ring

theorem toDigitsCore_eq : ∀ fuel n acc, n < fuel →
    Nat.toDigitsCore 10 fuel n acc = Nat.toDigitsCore 10 (n + 1) n [] ++ acc := by
  intro fuel
  induction fuel using Nat.strong_induction_on with
  | _ fuel ih =>
    intro n acc hn
    cases fuel with
    | zero => omega
    | succ f =>
      simp only [Nat.toDigitsCore]
      by_cases h0 : n / 10 = 0
      · simp [h0]
      · simp only [h0, if_false]
        have hlt : n / 10 < n := by omega
        rw [ih f (by omega) (n / 10) _ (by omega)]
        rw [ih n (by omega) (n / 10) [Nat.digitChar (n % 10)] hlt]
        simp

theorem toDigits_unfold (n : Nat) :
    Nat.toDigits 10 n =
      if n / 10 = 0 then [digitChar n] else Nat.toDigits 10 (n / 10) ++ [digitChar n] := by
  have hd : Nat.digitChar (n % 10) = digitChar n := by
    rw [natDigitChar_eq _ (Nat.mod_lt _ (by omega))]
    simp [digitChar]
  show Nat.toDigitsCore 10 (n + 1) n [] = _
  simp only [Nat.toDigitsCore]
  by_cases h0 : n / 10 = 0
  · simp [h0, hd]
  · simp only [h0, if_false]
    rw [toDigitsCore_eq n (n / 10) _ (by omega), hd]
    rfl

theorem toDigits_all (n : Nat) : (Nat.toDigits 10 n).all isDigit = true := by
  induction n using Nat.strong_induction_on with
  | _ n ih =>
    rw [toDigits_unfold]
    by_cases h0 : n / 10 = 0
    · simp [h0, isDigit_digitChar]
    · simp only [h0, if_false, List.all_append, List.all_cons, List.all_nil, Bool.and_true,
        isDigit_digitChar, Bool.and_true]
      exact ih (n / 10) (by omega)

theorem digitsValue_toDigits (n : Nat) : digitsValue (Nat.toDigits 10 n) 0 = n := by
  induction n using Nat.strong_induction_on with
  | _ n ih =>
    rw [toDigits_unfold]
    by_cases h0 : n / 10 = 0
    · simp only [h0, if_true, digitsValue, digitChar_toNat]
      omega
    · simp only [h0, if_false]
      rw [digitsValue_append, ih (n / 10) (by omega)]
      simp only [digitsValue, digitChar_toNat]
      omega

theorem toDigits_ne_nil (n : Nat) : Nat.toDigits 10 n ≠ [] := by
  rw [toDigits_unfold]
  split <;> simp

/-- The first digit of a positive number is not zero. -/
theorem toDigits_head (n : Nat) (h : 0 < n) :
    ∃ c cs, Nat.toDigits 10 n = c :: cs ∧ c ≠ '0' ∧ isDigit c = true := by
  induction n using Nat.strong_induction_on with
  | _ n ih =>
    rw [toDigits_unfold]
    by_cases h0 : n / 10 = 0
    · refine ⟨digitChar n, [], by simp [h0], ?_, isDigit_digitChar n⟩
      intro hc
      have := congrArg Char.toNat hc
      rw [digitChar_toNat] at this
      have h48 : ('0' : Char).toNat = 48 := rfl
      omega
    · obtain ⟨c, cs, hcs, hc, hd⟩ := ih (n / 10) (by omega) (by omega)
      exact ⟨c, cs ++ [digitChar n], by simp [h0, hcs], hc, hd⟩

theorem takeDigits_append (ds rest : List Char) (hds : ds.all isDigit = true)
    (hrest : ∀ c cs, rest = c :: cs → isDigit c = false) :
    takeDigits (ds ++ rest) = (ds, rest) := by
  induction ds with
  | nil =>
    cases rest with
    | nil => rfl
    | cons c cs => simp [takeDigits, hrest c cs rfl]
  | cons d ds ih =>
    simp only [List.all_cons, Bool.and_eq_true] at hds
    simp [takeDigits, hds.1, ih hds.2]

/-! ### String literals -/

theorem hexValue_hexDigit (k : Nat) (h : k < 16) : hexValue (hexDigit k) = some k := by
  interval_cases k <;> decide

theorem scanString_cons (fuel : Nat) (c : Char) (rest : List Char) :
    scanString (fuel + 1) (c :: rest) =
    if c = '"' then some ([], [], rest)
    else if c = '\\' then
      match rest with
      | [] => none
      | e :: rest1 =>
        if e = 'u' then
          match rest1 with
          | h1 :: h2 :: h3 :: h4 :: rest2 =>
            match hex4 h1 h2 h3 h4 with
            | none => none
            | some u =>
              if 0xD800 ≤ u ∧ u < 0xE000 then
                match (if u < 0xDC00 then lowSurrogate rest2 else none) with
                | some (l, rest3) =>
                  consPiece ([c, e, h1, h2, h3, h4] ++ rest2.take 6)
                    (Char.ofNat (0x10000 + (u - 0xD800) * 1024 + (l - 0xDC00)))
                    (scanString fuel rest3)
                | none => consPiece [c, e, h1, h2, h3, h4] replacementChar (scanString fuel rest2)
              else consPiece [c, e, h1, h2, h3, h4] (Char.ofNat u) (scanString fuel rest2)
          | _ => none
        else
          match simpleEscape e with
          | some x => consPiece [c, e] x (scanString fuel rest1)
          | none => none
    else if c.toNat < 0x20 then none
    else consPiece [c] c (scanString fuel rest) := by
  rfl

theorem scanString_simple (fuel : Nat) (e x : Char) (tail : List Char)
    (he : e ≠ 'u') (hx : simpleEscape e = some x) :
    scanString (fuel + 1) ('\\' :: e :: tail) = consPiece ['\\', e] x (scanString fuel tail) := by
  rw [scanString_cons, if_neg (by decide), if_pos rfl]
  simp only [he, if_false, hx]

theorem scanString_u (fuel : Nat) (h1 h2 h3 h4 : Char) (u : Nat) (tail : List Char)
    (hu : hex4 h1 h2 h3 h4 = some u) (hs : u < 0xD800) :
    scanString (fuel + 1) ('\\' :: 'u' :: h1 :: h2 :: h3 :: h4 :: tail) =
      consPiece ['\\', 'u', h1, h2, h3, h4] (Char.ofNat u) (scanString fuel tail) := by
  rw [scanString_cons, if_neg (by decide), if_pos rfl]
  simp only [if_true, hu]
  rw [if_neg (by omega)]

theorem scanString_plain (fuel : Nat) (c : Char) (tail : List Char)
    (h1 : c ≠ '"') (h2 : c ≠ '\\') (h3 : ¬ c.toNat < 0x20) :
    scanString (fuel + 1) (c :: tail) = consPiece [c] c (scanString fuel tail) := by
  rw [scanString_cons, if_neg h1, if_neg h2, if_neg h3]

theorem scanString_escapeChar (c : Char) (fuel : Nat) (tail : List Char) :
    scanString (fuel + 1) (escapeChar c ++ tail) = consPiece (escapeChar c) c (scanString fuel tail) := by
  unfold escapeChar
  by_cases h1 : c = '"'
  · rw [if_pos h1]; subst h1
    exact scanString_simple fuel _ _ tail (by decide) (by decide)
  rw [if_neg h1]
  by_cases h2 : c = '\\'
  · rw [if_pos h2]; subst h2
    exact scanString_simple fuel _ _ tail (by decide) (by decide)
  rw [if_neg h2]
  by_cases h3 : c = '\x08'
  · rw [if_pos h3]; subst h3
    exact scanString_simple fuel _ _ tail (by decide) (by decide)
  rw [if_neg h3]
  by_cases h4 : c = '\x0c'
  · rw [if_pos h4]; subst h4
    exact scanString_simple fuel _ _ tail (by decide) (by decide)
  rw [if_neg h4]
  by_cases h5 : c = '\n'
  · rw [if_pos h5]; subst h5
    exact scanString_simple fuel _ _ tail (by decide) (by decide)
  rw [if_neg h5]
  by_cases h6 : c = '\r'
  · rw [if_pos h6]; subst h6
    exact scanString_simple fuel _ _ tail (by decide) (by decide)
  rw [if_neg h6]
  by_cases h7 : c = '\t'
  · rw [if_pos h7]; subst h7
    exact scanString_simple fuel _ _ tail (by decide) (by decide)
  rw [if_neg h7]
  by_cases h8 : c.toNat < 0x20 ∨ c = '<' ∨ c = '>' ∨ c = '&'
  · rw [if_pos h8]
    have hn : c.toNat < 64 := by
      rcases h8 with h | h | h | h
      · omega
      · subst h; decide
      · subst h; decide
      · subst h; decide
    have hx1 : hexValue (hexDigit (c.toNat / 16)) = some (c.toNat / 16) :=
      hexValue_hexDigit _ (by omega)
    have hx2 : hexValue (hexDigit (c.toNat % 16)) = some (c.toNat % 16) :=
      hexValue_hexDigit _ (by omega)
    have h0 : hexValue '0' = some 0 := by decide
    have hval : ((0 * 16 + 0) * 16 + c.toNat / 16) * 16 + c.toNat % 16 = c.toNat := by omega
    have hu : hex4 '0' '0' (hexDigit (c.toNat / 16)) (hexDigit (c.toNat % 16)) = some c.toNat := by
      simp only [hex4, h0, hx1, hx2, hval]
    have := scanString_u fuel _ _ _ _ _ tail hu (by omega)
    rw [Char.ofNat_toNat] at this
    exact this
  rw [if_neg h8]
  by_cases h9 : c = '\u2028'
  · rw [if_pos h9]; subst h9
    exact scanString_u fuel _ _ _ _ 0x2028 tail (by decide) (by omega)
  rw [if_neg h9]
  by_cases h10 : c = '\u2029'
  · rw [if_pos h10]; subst h10
    exact scanString_u fuel _ _ _ _ 0x2029 tail (by decide) (by omega)
  rw [if_neg h10]
  exact scanString_plain fuel c tail h1 h2 (fun h => h8 (Or.inl h))

theorem escapeChar_length (c : Char) : 1 ≤ (escapeChar c).length := by
  unfold escapeChar
  repeat' split
  all_goals simp

theorem escape_length (s : List Char) : s.length ≤ (s.flatMap escapeChar).length := by
  induction s with
  | nil => simp
  | cons c s ih =>
    simp only [List.flatMap_cons, List.length_append, List.length_cons]
    have := escapeChar_length c
    omega

theorem scanString_escape (s : List Char) (rest : List Char) :
    ∀ fuel, s.length + 1 ≤ fuel →
      scanString fuel (s.flatMap escapeChar ++ '"' :: rest) = some (s.flatMap escapeChar, s, rest) := by
  induction s with
  | nil =>
    intro fuel hf
    obtain ⟨f, rfl⟩ : ∃ f, fuel = f + 1 := ⟨fuel - 1, by omega⟩
    simp only [List.flatMap_nil, List.nil_append]
    rw [scanString_cons, if_pos rfl]
  | cons c s ih =>
    intro fuel hf
    obtain ⟨f, rfl⟩ : ∃ f, fuel = f + 1 := ⟨fuel - 1, by omega⟩
    simp only [List.flatMap_cons, List.append_assoc]
    rw [scanString_escapeChar, ih f (by simpa using hf)]
    rfl

/-! ### Base64 -/

theorem base64Value_base64Char (n : Nat) (h : n < 64) : base64Value (base64Char n) = some n := by
  interval_cases n <;> decide

theorem base64Char_plain (n : Nat) (h : n < 64) :
    base64Char n ≠ '=' ∧ base64Char n ≠ '\r' ∧ base64Char n ≠ '\n' ∧ base64Char n ≠ '"'
      ∧ base64Char n ≠ '\\' ∧ ¬ (base64Char n).toNat < 0x20 := by
  interval_cases n <;> decide

theorem byte_ofNat (a : UInt8) (m : Nat) (h : m = a.toNat) : UInt8.ofNat m = a := by
  subst h; exact UInt8.ofNat_toNat_self a

theorem base64Quantum_full (a b c : UInt8) (last : Bool) :
    base64Quantum (base64Char (a.toNat / 4)) (base64Char (a.toNat % 4 * 16 + b.toNat / 16))
      (base64Char (b.toNat % 16 * 4 + c.toNat / 64)) (base64Char (c.toNat % 64)) last
      = some [a, b, c] := by
  have ha := a.toNat_lt_size
  have hb := b.toNat_lt_size
  have hc := c.toNat_lt_size
  simp only [UInt8.size] at ha hb hc
  have h0 := base64Value_base64Char (a.toNat / 4) (by omega)
  have h1 := base64Value_base64Char (a.toNat % 4 * 16 + b.toNat / 16) (by omega)
  have h2 := base64Value_base64Char (b.toNat % 16 * 4 + c.toNat / 64) (by omega)
  have h3 := base64Value_base64Char (c.toNat % 64) (by omega)
  have p2 := (base64Char_plain (b.toNat % 16 * 4 + c.toNat / 64) (by omega)).1
  have p3 := (base64Char_plain (c.toNat % 64) (by omega)).1
  simp only [base64Quantum, h0, h1, h2, h3, p2, p3, if_false]
  rw [byte_ofNat a _ (by omega), byte_ofNat b _ (by omega), byte_ofNat c _ (by omega)]

theorem base64Quantum_two (a b : UInt8) :
    base64Quantum (base64Char (a.toNat / 4)) (base64Char (a.toNat % 4 * 16 + b.toNat / 16))
      (base64Char (b.toNat % 16 * 4)) '=' true = some [a, b] := by
  have ha := a.toNat_lt_size
  have hb := b.toNat_lt_size
  simp only [UInt8.size] at ha hb
  have h0 := base64Value_base64Char (a.toNat / 4) (by omega)
  have h1 := base64Value_base64Char (a.toNat % 4 * 16 + b.toNat / 16) (by omega)
  have h2 := base64Value_base64Char (b.toNat % 16 * 4) (by omega)
  have p2 := (base64Char_plain (b.toNat % 16 * 4) (by omega)).1
  simp only [base64Quantum, h0, h1, h2, p2, if_false, if_true]
  rw [byte_ofNat a _ (by omega), byte_ofNat b _ (by omega)]

theorem base64Quantum_one (a : UInt8) :
    base64Quantum (base64Char (a.toNat / 4)) (base64Char (a.toNat % 4 * 16)) '=' '=' true
      = some [a] := by
  have ha := a.toNat_lt_size
  simp only [UInt8.size] at ha
  have h0 := base64Value_base64Char (a.toNat / 4) (by omega)
  have h1 := base64Value_base64Char (a.toNat % 4 * 16) (by omega)
  simp only [base64Quantum, h0, h1, if_true, and_self]
  rw [byte_ofNat a _ (by omega)]

theorem base64DecodeQuanta_encode (bs : List UInt8) :
    base64DecodeQuanta (base64Encode bs) = some bs := by
  induction bs using base64Encode.induct with
  | case1 => rfl
  | case2 a =>
    simp only [base64Encode, base64DecodeQuanta, List.isEmpty_nil, base64Quantum_one]
    rfl
  | case3 a b =>
    simp only [base64Encode, base64DecodeQuanta, List.isEmpty_nil, base64Quantum_two]
    rfl
  | case4 a b c rest ih =>
    simp only [base64Encode, base64DecodeQuanta, base64Quantum_full, ih]
    rfl

/-- Every character of a base64 text is written as it is in a JSON string and
is no line break. -/
theorem base64Encode_plain (bs : List UInt8) :
    ∀ x ∈ base64Encode bs, x ≠ '\r' ∧ x ≠ '\n' ∧ x ≠ '"' ∧ x ≠ '\\' ∧ ¬ x.toNat < 0x20 := by
  have key : ∀ n, n < 64 → base64Char n ≠ '\r' ∧ base64Char n ≠ '\n' ∧ base64Char n ≠ '"'
      ∧ base64Char n ≠ '\\' ∧ ¬ (base64Char n).toNat < 0x20 :=
    fun n h => (base64Char_plain n h).2
  have pad : ('=' : Char) ≠ '\r' ∧ ('=' : Char) ≠ '\n' ∧ ('=' : Char) ≠ '"' ∧ ('=' : Char) ≠ '\\'
      ∧ ¬ ('=' : Char).toNat < 0x20 := by decide
  induction bs using base64Encode.induct with
  | case1 => intro x hx; simp [base64Encode] at hx
  | case2 a =>
    have ha := a.toNat_lt_size
    simp only [UInt8.size] at ha
    intro x hx
    simp only [base64Encode, List.mem_cons, List.mem_singleton, List.not_mem_nil, or_false] at hx
    rcases hx with rfl | rfl | rfl | rfl
    · exact key _ (by omega)
    · exact key _ (by omega)
    · exact pad
    · exact pad
  | case3 a b =>
    have ha := a.toNat_lt_size
    have hb := b.toNat_lt_size
    simp only [UInt8.size] at ha hb
    intro x hx
    simp only [base64Encode, List.mem_cons, List.mem_singleton, List.not_mem_nil, or_false] at hx
    rcases hx with rfl | rfl | rfl | rfl
    · exact key _ (by omega)
    · exact key _ (by omega)
    · exact key _ (by omega)
    · exact pad
  | case4 a b c rest ih =>
    have ha := a.toNat_lt_size
    have hb := b.toNat_lt_size
    have hc := c.toNat_lt_size
    simp only [UInt8.size] at ha hb hc
    intro x hx
    simp only [base64Encode, List.mem_cons] at hx
    rcases hx with rfl | rfl | rfl | rfl | hx
    · exact key _ (by omega)
    · exact key _ (by omega)
    · exact key _ (by omega)
    · exact key _ (by omega)
    · exact ih x hx

theorem base64Decode_encode (bs : List UInt8) : base64Decode (base64Encode bs) = some bs := by
  unfold base64Decode
  have : (base64Encode bs).filter (fun c => ¬ (c = '\r' ∨ c = '\n')) = base64Encode bs := by
    apply List.filter_eq_self.mpr
    intro x hx
    have := base64Encode_plain bs x hx
    simp [this.1, this.2.1]
  rw [this]
  exact base64DecodeQuanta_encode bs

/-! ### The calendar -/

theorem yoe_case (k D e a b c : Nat) (hk : k ≤ 3)
    (hD1 : 36524 * k ≤ D) (hD2 : D ≤ 36524 * k + 36523) (hD3 : D ≤ 146095)
    (he1 : 1460 * e ≤ D) (he2 : D < 1460 * e + 1460)
    (ha1 : 365 * a ≤ D - e + k) (ha2 : D - e + k < 365 * a + 365)
    (hb1 : 4 * b ≤ a) (hb2 : a < 4 * b + 4)
    (hc1 : 100 * c ≤ a) (hc2 : a < 100 * c + 100) :
    365 * a + b - c ≤ D ∧ D - (365 * a + b - c) ≤ 365 ∧ a ≤ 399 ∧
    (D - (365 * a + b - c) = 365 → (a + 1) % 4 = 0 ∧ (a + 1) % 100 ≠ 0) := by
  have hek : 25 * k ≤ e := by omega
  have hek2 : e ≤ 25 * k + 25 := by omega
  have hck : c = k := by omega
  subst hck
  have hbe : b ≤ e + 1 := by omega
  refine ⟨by omega, by omega, by omega, ?_⟩
  intro h365
  have he3 : b + 1 ≤ e := by omega
  have hb3 : a = 4 * b + 3 := by omega
  refine ⟨by omega, ?_⟩
  intro h100
  have ha100 : a = 100 * c + 99 := by omega
  have hb25 : b = 25 * c + 24 := by omega
  omega

theorem yoe_fact (doe : Nat) (h : doe < 146097) :
    365 * ((doe - doe / 1460 + doe / 36524 - doe / 146096) / 365)
        + (doe - doe / 1460 + doe / 36524 - doe / 146096) / 365 / 4
        - (doe - doe / 1460 + doe / 36524 - doe / 146096) / 365 / 100 ≤ doe ∧
    doe - (365 * ((doe - doe / 1460 + doe / 36524 - doe / 146096) / 365)
        + (doe - doe / 1460 + doe / 36524 - doe / 146096) / 365 / 4
        - (doe - doe / 1460 + doe / 36524 - doe / 146096) / 365 / 100) ≤ 365 ∧
    (doe - doe / 1460 + doe / 36524 - doe / 146096) / 365 ≤ 399 ∧
    (doe - (365 * ((doe - doe / 1460 + doe / 36524 - doe / 146096) / 365)
        + (doe - doe / 1460 + doe / 36524 - doe / 146096) / 365 / 4
        - (doe - doe / 1460 + doe / 36524 - doe / 146096) / 365 / 100) = 365 →
      ((doe - doe / 1460 + doe / 36524 - doe / 146096) / 365 + 1) % 4 = 0 ∧
      (((doe - doe / 1460 + doe / 36524 - doe / 146096) / 365 + 1) % 100 ≠ 0 ∨
       (doe - doe / 1460 + doe / 36524 - doe / 146096) / 365 = 399)) := by
  by_cases hlast : doe = 146096
  · subst hlast; decide
  · have hp : doe / 146096 = 0 := by omega
    have hN : doe - doe / 1460 + doe / 36524 - doe / 146096 = doe - doe / 1460 + doe / 36524 := by
      rw [hp]; rfl
    rw [hN]
    obtain ⟨h1, h2, h3, h4⟩ := yoe_case (doe / 36524) doe (doe / 1460)
      ((doe - doe / 1460 + doe / 36524) / 365) ((doe - doe / 1460 + doe / 36524) / 365 / 4)
      ((doe - doe / 1460 + doe / 36524) / 365 / 100)
      (by omega) (by omega) (by omega) (by omega)
      (by omega) (by omega) (by omega) (by omega) (by omega) (by omega) (by omega) (by omega)
    exact ⟨h1, h2, h3, fun h => ⟨(h4 h).1, Or.inl (h4 h).2⟩⟩

/-- The day count of the civil date of a day count is that day count. -/
theorem daysFromCivil_civilFromDays (days : Int) :
    daysFromCivil (civilFromDays days).1 (civilFromDays days).2.1 (civilFromDays days).2.2
      = days := by
  have hdoe : (days + 719468 - (days + 719468) / 146097 * 146097).toNat < 146097 := by omega
  obtain ⟨doe, hdoeq⟩ :
      ∃ doe, doe = (days + 719468 - (days + 719468) / 146097 * 146097).toNat := ⟨_, rfl⟩
  have hz : days + 719468 = (days + 719468) / 146097 * 146097 + (doe : Int) := by omega
  obtain ⟨era, heraq⟩ : ∃ era, era = (days + 719468) / 146097 := ⟨_, rfl⟩
  have hf := yoe_fact doe (by omega)
  simp only [daysFromCivil, civilFromDays]
  rw [← hdoeq, ← heraq]
  rw [← heraq] at hz
  obtain ⟨yoe, hyoeq⟩ :
      ∃ yoe, yoe = (doe - doe / 1460 + doe / 36524 - doe / 146096) / 365 := ⟨_, rfl⟩
  rw [← hyoeq] at hf ⊢
  obtain ⟨h1, h2, h3, -⟩ := hf
  obtain ⟨doy, hdoyq⟩ : ∃ doy, doy = doe - (365 * yoe + yoe / 4 - yoe / 100) := ⟨_, rfl⟩
  rw [← hdoyq] at h2 ⊢
  have hdoe2 : doe = 365 * yoe + yoe / 4 - yoe / 100 + doy := by omega
  clear hyoeq hdoyq
  have hera : ((yoe : Int) + era * 400) / 400 = era := by omega
  have hmp : (5 * doy + 2) / 153 ≤ 11 := by omega
  have hmd : (153 * ((5 * doy + 2) / 153) + 2) / 5 ≤ doy := by omega
  split_ifs <;> simp only [add_sub_cancel_right, hera, Int.toNat_ofNat, Nat.add_sub_cancel] <;> omega

/-- The civil date of a day count is a date of the calendar. -/
theorem civilFromDays_valid (days : Int) (hy : 0 ≤ (civilFromDays days).1) :
    1 ≤ (civilFromDays days).2.1 ∧ (civilFromDays days).2.1 ≤ 12 ∧
    1 ≤ (civilFromDays days).2.2 ∧
    (civilFromDays days).2.2 ≤ daysIn (civilFromDays days).2.1 (civilFromDays days).1.toNat := by
  have hdoe : (days + 719468 - (days + 719468) / 146097 * 146097).toNat < 146097 := by omega
  obtain ⟨doe, hdoeq⟩ :
      ∃ doe, doe = (days + 719468 - (days + 719468) / 146097 * 146097).toNat := ⟨_, rfl⟩
  obtain ⟨era, heraq⟩ : ∃ era, era = (days + 719468) / 146097 := ⟨_, rfl⟩
  have hf := yoe_fact doe (by omega)
  simp only [civilFromDays] at hy ⊢
  rw [← hdoeq, ← heraq] at hy ⊢
  obtain ⟨yoe, hyoeq⟩ :
      ∃ yoe, yoe = (doe - doe / 1460 + doe / 36524 - doe / 146096) / 365 := ⟨_, rfl⟩
  rw [← hyoeq] at hf hy ⊢
  obtain ⟨h1, h2, h3, h4⟩ := hf
  obtain ⟨doy, hdoyq⟩ : ∃ doy, doy = doe - (365 * yoe + yoe / 4 - yoe / 100) := ⟨_, rfl⟩
  rw [← hdoyq] at h2 h4 hy ⊢
  clear hyoeq hdoyq hdoeq heraq h1
  obtain ⟨mp, hmpq⟩ : ∃ mp, mp = (5 * doy + 2) / 153 := ⟨_, rfl⟩
  rw [← hmpq] at hy ⊢
  have hmp : mp ≤ 11 := by omega
  have hlo : 153 * mp ≤ 5 * doy + 2 := by omega
  have hhi : 5 * doy + 2 < 153 * mp + 153 := by omega
  clear hmpq
  interval_cases mp <;> simp only [daysIn] <;> norm_num at hy ⊢ <;>
    (try split_ifs) <;> omega

/-! ### RFC 3339 texts -/

theorem scanField_append (width lo hi : Nat) (ds rest : List Char) (hlen : ds.length = width)
    (hall : ds.all isDigit = true) (hlo : lo ≤ digitsValue ds 0) (hhi : digitsValue ds 0 ≤ hi) :
    scanField width lo hi (ds ++ rest) = some (digitsValue ds 0, rest) := by
  unfold scanField
  have htake : (ds ++ rest).take width = ds := by
    rw [← hlen]; simp
  have hdrop : (ds ++ rest).drop width = rest := by
    rw [← hlen]; simp
  rw [if_neg (by rw [List.length_append]; omega), htake, hdrop, if_pos ⟨hall, hlo, hhi⟩]

theorem scanField_digits (width lo hi n : Nat) (rest : List Char) (hn : n < 10 ^ width)
    (hlo : lo ≤ n) (hhi : n ≤ hi) :
    scanField width lo hi (digits width n ++ rest) = some (n, rest) := by
  have hv : digitsValue (digits width n) 0 = n := by
    rw [digitsValue_digits, Nat.mod_eq_of_lt hn]
  have := scanField_append width lo hi (digits width n) rest (digits_length _ _) (digits_all _ _)
    (by rw [hv]; exact hlo) (by rw [hv]; exact hhi)
  rw [hv] at this
  exact this

theorem toDigits_length_le (k : Nat) : ∀ n, n < 10 ^ (k + 1) → (Nat.toDigits 10 n).length ≤ k + 1 := by
  induction k with
  | zero =>
    intro n hn
    rw [toDigits_unfold, if_pos (by omega)]
    simp
  | succ k ih =>
    intro n hn
    rw [toDigits_unfold]
    by_cases h0 : n / 10 = 0
    · simp [h0]
    · simp only [h0, if_false, List.length_append, List.length_singleton]
      have : n / 10 < 10 ^ (k + 1) := by
        rw [pow_succ] at hn; omega
      have := ih (n / 10) this
      omega

theorem digitsValue_zeros (z : Nat) (acc : Nat) :
    digitsValue (List.replicate z '0') acc = acc * 10 ^ z := by
  induction z generalizing acc with
  | zero => simp [digitsValue]
  | succ z ih =>
    simp only [List.replicate_succ, digitsValue]
    rw [ih]
    have : ('0' : Char).toNat - 48 = 0 := by decide
    rw [this, pow_succ]; ring

theorem scanField_year (y : Int) (rest : List Char) (h0 : 0 ≤ y) (h1 : y < 10000) :
    scanField 4 0 9999 (appendInt y 4 ++ rest) = some (y.toNat, rest) := by
  have hneg : ¬ y < 0 := by omega
  have hnat : y.natAbs = y.toNat := by omega
  have hlt : y.toNat < 10 ^ 4 := by omega
  have hlen := toDigits_length_le 3 y.toNat hlt
  have hne := toDigits_ne_nil y.toNat
  have hpos : 0 < (Nat.toDigits 10 y.toNat).length := List.length_pos.mpr hne
  have happ : appendInt y 4 =
      List.replicate (4 - (Nat.toDigits 10 y.toNat).length) '0' ++ Nat.toDigits 10 y.toNat := by
    simp only [appendInt, natDigits, hnat, hneg, if_false]
  have hv : digitsValue (appendInt y 4) 0 = y.toNat := by
    rw [happ, digitsValue_append, digitsValue_zeros, digitsValue_acc, digitsValue_toDigits]
    simp
  have := scanField_append 4 0 9999 (appendInt y 4) rest
    (by rw [happ, List.length_append, List.length_replicate]; omega)
    (by
      rw [happ, List.all_append, toDigits_all, Bool.and_true]
      simp only [List.all_replicate]
      simp
      right; decide)
    (by omega) (by rw [hv]; omega)
  rw [hv] at this
  exact this

/-- Trailing zeros taken off a text of digits. -/
theorem trim_zeros (l : List Char) :
    ∃ k, l = (l.reverse.dropWhile (· == '0')).reverse ++ List.replicate k '0' := by
  have h := List.takeWhile_append_dropWhile (· == '0') l.reverse
  have hz : l.reverse.takeWhile (· == '0') = List.replicate (l.reverse.takeWhile (· == '0')).length '0' := by
    apply List.eq_replicate_iff.mpr
    refine ⟨rfl, ?_⟩
    intro b hb
    have := List.mem_takeWhile_imp hb
    simpa using this
  refine ⟨(l.reverse.takeWhile (· == '0')).length, ?_⟩
  have h2 := congrArg List.reverse h
  rw [List.reverse_append, List.reverse_reverse] at h2
  have h3 : (l.reverse.takeWhile (· == '0')).reverse
      = List.replicate (l.reverse.takeWhile (· == '0')).length '0' := by
    rw [hz, List.reverse_replicate, List.length_replicate]
  rw [h3] at h2
  exact h2.symm

theorem scanFraction9_formatNano (nsec : Nat) (zone : List Char) (hn : nsec < 10 ^ 9)
    (hz : ∀ c cs, zone = c :: cs → isDigit c = false ∧ c ≠ '.') (hzne : zone ≠ []) :
    scanFraction9 (formatNano nsec ++ zone) = (nsec, zone) := by
  obtain ⟨k, hk⟩ := trim_zeros (digits 9 nsec)
  obtain ⟨ds, hds⟩ : ∃ ds, ds = ((digits 9 nsec).reverse.dropWhile (· == '0')).reverse := ⟨_, rfl⟩
  rw [← hds] at hk
  have hlen : ds.length + k = 9 := by
    have := congrArg List.length hk
    rw [digits_length, List.length_append, List.length_replicate] at this
    omega
  have hall : ds.all isDigit = true := by
    have := digits_all 9 nsec
    rw [hk, List.all_append] at this
    simp only [Bool.and_eq_true] at this
    exact this.1
  have hval : digitsValue ds 0 * 10 ^ k = nsec := by
    have := digitsValue_digits 9 nsec
    rw [hk, digitsValue_append, digitsValue_zeros, Nat.mod_eq_of_lt hn] at this
    exact this
  obtain ⟨z0, zs, hzs⟩ : ∃ z0 zs, zone = z0 :: zs := by
    cases zone with
    | nil => exact absurd rfl hzne
    | cons a b => exact ⟨a, b, rfl⟩
  have hz0 := hz z0 zs hzs
  unfold formatNano
  simp only [← hds]
  by_cases hempty : ds = []
  · subst hempty
    simp only [List.isEmpty_nil, if_true, List.nil_append]
    have : nsec = 0 := by
      rw [← hval]; simp [digitsValue]
    subst this
    rw [hzs]
    simp only [scanFraction9]
    rw [if_neg (fun h => hz0.2 h.1)]
  · have hnotempty : ds.isEmpty = false := by
      cases ds with
      | nil => exact absurd rfl hempty
      | cons a b => rfl
    simp only [hnotempty, Bool.false_eq_true, if_false, List.cons_append, scanFraction9]
    have htd : takeDigits (ds ++ zone) = (ds, zone) :=
      takeDigits_append ds zone hall (by
        intro c cs h
        rw [hzs] at h
        cases h
        exact hz0.1)
    rw [htd]
    simp only [hnotempty, Bool.false_eq_true, not_false_eq_true, and_self, if_true]
    have ht9 : ds.take 9 = ds := List.take_of_length_le (by omega)
    simp only [nanosOfDigits, ht9]
    have : 9 - ds.length = k := by omega
    rw [this, hval]

theorem digits_two (n : Nat) : digits 2 n = [digitChar (n / 10), digitChar n] := by
  simp [digits]

theorem scanZone_formatZone (offset : Int) (k : Int) (hk : offset = 60 * k)
    (hr : (Int.tdiv offset 60).natAbs / 60 < 24) :
    scanZone (formatZone offset) = some offset := by
  unfold formatZone
  by_cases h0 : offset = 0
  · rw [if_pos h0, h0]; rfl
  · rw [if_neg h0]
    have hzone : Int.tdiv offset 60 = k := by
      rw [hk]; exact Int.mul_tdiv_cancel_left k (by decide)
    rw [hzone] at hr ⊢
    simp only [digits_two, List.cons_append, List.nil_append, scanZone]
    have hh : scanField 2 0 23 [digitChar (k.natAbs / 60 / 10), digitChar (k.natAbs / 60)]
        = some (k.natAbs / 60, []) := by
      have := scanField_digits 2 0 23 (k.natAbs / 60) [] (by omega) (by omega) (by omega)
      rw [digits_two] at this
      simpa using this
    have hm : scanField 2 0 59 [digitChar (k.natAbs % 60 / 10), digitChar (k.natAbs % 60)]
        = some (k.natAbs % 60, []) := by
      have := scanField_digits 2 0 59 (k.natAbs % 60) [] (by omega) (by omega) (by omega)
      rw [digits_two] at this
      simpa using this
    rw [hh, hm]
    simp only [if_true]
    by_cases hneg : k < 0
    · simp only [hneg, if_true]
      exact congrArg some (by omega)
    · simp only [hneg, if_false, if_true]
      exact congrArg some (by omega)

theorem formatZone_head (offset : Int) :
    formatZone offset ≠ [] ∧
    ∀ c cs, formatZone offset = c :: cs → isDigit c = false ∧ c ≠ '.' := by
  unfold formatZone
  by_cases h0 : offset = 0
  · rw [if_pos h0]
    refine ⟨by simp, ?_⟩
    intro c cs h
    cases h
    decide
  · rw [if_neg h0]
    refine ⟨by simp, ?_⟩
    intro c cs h
    simp only [List.cons.injEq] at h
    rw [← h.1]
    split <;> decide

/-! ### RFC 3339 -/

/-- Parsing the RFC3339Nano text of a time gives the time back, for a time
with nanoseconds below a second, a year from 0 to 9999 and a zone of whole
minutes below 24 hours. -/
theorem parseRFC3339_format (t : Time) (hn : t.nsec < 10 ^ 9)
    (hy0 : 0 ≤ t.Year) (hy1 : t.Year < 10000)
    (k : Int) (hk : t.offset = 60 * k) (hr : (Int.tdiv t.offset 60).natAbs / 60 < 24) :
    parseRFC3339 t.FormatRFC3339Nano.data = some t := by
  obtain ⟨sec, nsec, offset⟩ := t
  simp only [Time.Year] at hy0 hy1
  simp only at hn hk hr
  have hvalid := civilFromDays_valid ((sec + offset) / 86400) hy0
  have hdays := daysFromCivil_civilFromDays ((sec + offset) / 86400)
  unfold Time.FormatRFC3339Nano
  simp only
  rcases hciv : civilFromDays ((sec + offset) / 86400) with ⟨y, m, d⟩
  rw [hciv] at hvalid hdays hy0 hy1
  simp only at hvalid hdays hy0 hy1
  obtain ⟨hm1, hm12, hd1, hdmax⟩ := hvalid
  have hrem : ((sec + offset) % 86400).toNat < 86400 := by omega
  obtain ⟨rem, hremq⟩ : ∃ rem, rem = ((sec + offset) % 86400).toNat := ⟨_, rfl⟩
  rw [← hremq] at hrem ⊢
  have hdmax31 : d ≤ 31 := by
    have : daysIn m y.toNat ≤ 31 := by
      unfold daysIn; split_ifs <;> omega
    omega
  have hzone := formatZone_head offset
  simp only [List.cons_append, List.append_assoc, parseRFC3339]
  rw [scanField_year y _ hy0 hy1]
  simp only [scanChar, if_true]
  rw [scanField_digits 2 1 12 m _ (by omega) hm1 hm12]
  simp only [scanChar, if_true]
  rw [scanField_digits 2 1 (daysIn m y.toNat) d _ (by omega) hd1 hdmax]
  simp only [scanChar, if_true]
  rw [scanField_digits 2 0 23 (rem / 3600) _ (by omega) (by omega) (by omega)]
  simp only [scanChar, if_true]
  rw [scanField_digits 2 0 59 (rem % 3600 / 60) _ (by omega) (by omega) (by omega)]
  simp only [scanChar, if_true]
  rw [scanField_digits 2 0 59 (rem % 60) _ (by omega) (by omega) (by omega)]
  simp only
  rw [scanFraction9_formatNano nsec (formatZone offset) hn hzone.2 hzone.1]
  simp only
  rw [scanZone_formatZone offset k hk hr]
  simp only [Option.some.injEq, Time.mk.injEq, and_true]
  have hyy : ((y.toNat : Nat) : Int) = y := by omega
  rw [hyy, hdays]
  omega

/-! ### Numbers -/

theorem isDigit_toNat (c : Char) (h : isDigit c = true) : 48 ≤ c.toNat ∧ c.toNat ≤ 57 := by
  simpa [isDigit] using h

theorem Delimited_head (rest : List Char) (h : Delimited rest) :
    ∀ c cs, rest = c :: cs →
      isDigit c = false ∧ c ≠ '.' ∧ c ≠ 'e' ∧ c ≠ 'E' ∧ isSpace c = false := by
  intro c cs hc
  rcases h c cs hc with rfl | rfl <;> decide

theorem scanFraction_delim (rest : List Char) (h : Delimited rest) :
    scanFraction rest = some ([], rest) := by
  cases rest with
  | nil => rfl
  | cons c cs =>
    have := (Delimited_head _ h c cs rfl).2.1
    simp [scanFraction, this]

theorem scanExponent_delim (rest : List Char) (h : Delimited rest) :
    scanExponent rest = some ([], rest) := by
  cases rest with
  | nil => rfl
  | cons c cs =>
    have := Delimited_head _ h c cs rfl
    simp [scanExponent, this.2.2.1, this.2.2.2.1]

theorem scanIntPart_toDigits (n : Nat) (rest : List Char) (h : Delimited rest) :
    scanIntPart (Nat.toDigits 10 n ++ rest) = some (Nat.toDigits 10 n, rest) := by
  by_cases h0 : n = 0
  · subst h0
    have : Nat.toDigits 10 0 = ['0'] := by decide
    rw [this]
    simp [scanIntPart]
  · obtain ⟨c, cs, hcs, hc, hd⟩ := toDigits_head n (by omega)
    have hall := toDigits_all n
    rw [hcs] at hall ⊢
    simp only [List.all_cons, Bool.and_eq_true] at hall
    have htd : takeDigits (cs ++ rest) = (cs, rest) :=
      takeDigits_append cs rest hall.2 (fun c cs hc => (Delimited_head _ h c cs hc).1)
    simp only [List.cons_append, scanIntPart, hc, if_false, hd, if_true, htd]

theorem scanNumber_formatInt (i : Int) (rest : List Char) (h : Delimited rest) :
    scanNumber (formatInt i ++ rest) = some (formatInt i, rest) := by
  unfold formatInt
  by_cases hneg : i < 0
  · simp only [hneg, if_true, List.cons_append, scanNumber]
    rw [scanIntPart_toDigits _ _ h]
    simp only [scanFraction_delim _ h, scanExponent_delim _ h]
    simp
  · simp only [hneg, if_false]
    have hhead : ∃ c cs, Nat.toDigits 10 i.natAbs = c :: cs ∧ c ≠ '-' := by
      have hne := toDigits_ne_nil i.natAbs
      have hall := toDigits_all i.natAbs
      cases hd : Nat.toDigits 10 i.natAbs with
      | nil => exact absurd hd hne
      | cons c cs =>
        rw [hd] at hall
        simp only [List.all_cons, Bool.and_eq_true] at hall
        refine ⟨c, cs, rfl, ?_⟩
        intro hc
        subst hc
        have := isDigit_toNat _ hall.1
        revert this; decide
    obtain ⟨c, cs, hcs, hc⟩ := hhead
    have key : scanIntPart (Nat.toDigits 10 i.natAbs ++ rest)
        = some (Nat.toDigits 10 i.natAbs, rest) := scanIntPart_toDigits _ _ h
    simp only [scanNumber]
    rw [hcs] at key ⊢
    simp only [List.cons_append, hc, if_false] at key ⊢
    rw [key]
    simp only [scanFraction_delim _ h, scanExponent_delim _ h]
    simp

theorem parseInt_formatInt (i : Int) (h0 : -(2 ^ 63) ≤ i) (h1 : i < 2 ^ 63) :
    parseInt (formatInt i) = some i := by
  unfold formatInt
  have hall := toDigits_all i.natAbs
  have hval := digitsValue_toDigits i.natAbs
  have hne := toDigits_ne_nil i.natAbs
  by_cases hneg : i < 0
  · simp only [hneg, if_true, parseInt]
    have hemp : (Nat.toDigits 10 i.natAbs).isEmpty = false := by
      cases hd : Nat.toDigits 10 i.natAbs with
      | nil => exact absurd hd hne
      | cons c cs => rfl
    rw [if_pos ⟨hall, by simp [hemp], by rw [hval]; omega⟩, hval]
    exact congrArg some (by omega)
  · simp only [hneg, if_false]
    cases hd : Nat.toDigits 10 i.natAbs with
    | nil => exact absurd hd hne
    | cons c cs =>
      rw [hd] at hall hval
      have hc : c ≠ '-' := by
        intro hc
        subst hc
        simp only [List.all_cons, Bool.and_eq_true] at hall
        have := isDigit_toNat _ hall.1
        revert this; decide
      simp only [parseInt, hc, if_false]
      rw [if_pos ⟨hall, by rw [hval]; omega⟩, hval]
      exact congrArg some (by omega)

/-! ### Values and objects -/

theorem skipSpace_cons (c : Char) (cs : List Char) (h : isSpace c = false) :
    skipSpace (c :: cs) = c :: cs := by
  simp [skipSpace, h]

theorem skipSpace_delim (rest : List Char) (h : Delimited rest) : skipSpace rest = rest := by
  cases rest with
  | nil => rfl
  | cons c cs => exact skipSpace_cons c cs (Delimited_head _ h c cs rfl).2.2.2.2

theorem parse_value_cons (fuel : Nat) (c : Char) (rest : List Char) (h : isSpace c = false) :
    parse (fuel + 1) Goal.value (c :: rest) =
      if c = '"' then
        match scanString rest.length rest with
        | some (raw, val, rest1) => some (Parsed.value (JValue.string raw val), rest1)
        | none => none
      else if c = '[' then
        match skipSpace rest with
        | [] => none
        | c1 :: rest1 =>
          if c1 = ']' then some (Parsed.value (JValue.array []), rest1)
          else
            match parse fuel Goal.elements (c1 :: rest1) with
            | some (Parsed.elements vs, rest2) => some (Parsed.value (JValue.array vs), rest2)
            | _ => none
      else if c = '\x7b' then
        match skipSpace rest with
        | [] => none
        | c1 :: rest1 =>
          if c1 = '\x7d' then some (Parsed.value (JValue.object []), rest1)
          else
            match parse fuel Goal.members (c1 :: rest1) with
            | some (Parsed.members ms, rest2) => some (Parsed.value (JValue.object ms), rest2)
            | _ => none
      else if c = 'n' then
        if rest.take 3 = ['u', 'l', 'l'] then some (Parsed.value JValue.null, rest.drop 3) else none
      else if c = 't' then
        if rest.take 3 = ['r', 'u', 'e'] then some (Parsed.value (JValue.bool true), rest.drop 3)
        else none
      else if c = 'f' then
        if rest.take 4 = ['a', 'l', 's', 'e'] then
          some (Parsed.value (JValue.bool false), rest.drop 4)
        else none
      else
        match scanNumber (c :: rest) with
        | some (lit, rest1) => some (Parsed.value (JValue.number lit), rest1)
        | none => none := by
  simp only [parse, skipSpace_cons c rest h] <;> rfl

theorem parse_members_cons (fuel : Nat) (rest : List Char) :
    parse (fuel + 1) Goal.members ('"' :: rest) =
      match scanString rest.length rest with
      | none => none
      | some (_, key, rest1) =>
        match skipSpace rest1 with
        | [] => none
        | colon :: rest2 =>
          if colon = ':' then
            match parse fuel Goal.value rest2 with
            | some (Parsed.value v, rest3) =>
              match skipSpace rest3 with
              | [] => none
              | c :: rest4 =>
                if c = ',' then
                  match parse fuel Goal.members rest4 with
                  | some (Parsed.members ms, rest5) =>
                    some (Parsed.members ((key, v) :: ms), rest5)
                  | _ => none
                else if c = '\x7d' then some (Parsed.members [(key, v)], rest4)
                else none
            | _ => none
          else none := by
  simp only [parse, skipSpace_cons '"' rest (by decide), if_true] <;> rfl

theorem scanString_plain_text (text rest : List Char) (h : ∀ c ∈ text, Plain c) :
    ∀ fuel, text.length + 1 ≤ fuel → scanString fuel (text ++ '"' :: rest) = some (text, text, rest) := by
  induction text with
  | nil =>
    intro fuel hf
    obtain ⟨f, rfl⟩ : ∃ f, fuel = f + 1 := ⟨fuel - 1, by omega⟩
    rw [List.nil_append, scanString_cons, if_pos rfl]
  | cons c cs ih =>
    intro fuel hf
    obtain ⟨f, rfl⟩ : ∃ f, fuel = f + 1 := ⟨fuel - 1, by omega⟩
    have hc := h c (List.mem_cons_self _ _)
    rw [List.cons_append, scanString_plain f c _ hc.1 hc.2.1 hc.2.2,
      ih (fun x hx => h x (List.mem_cons_of_mem _ hx)) f (by simpa using hf)]
    rfl

/-- A plain text in quotes is read as the string of its characters. -/
theorem Reads_plain (text : List Char) (h : ∀ c ∈ text, Plain c) :
    Reads 1 ('"' :: text ++ ['"']) (JValue.string text text) := by
  intro fuel rest hf _
  obtain ⟨f, rfl⟩ : ∃ f, fuel = f + 1 := ⟨fuel - 1, by omega⟩
  simp only [List.cons_append, List.append_assoc, List.singleton_append, List.nil_append]
  rw [parse_value_cons f _ _ (by decide), if_pos rfl,
    scanString_plain_text text rest h _ (by simp)]

/-- A marshalled string is read as the string. -/
theorem Reads_string (s : String) :
    Reads 1 (marshalString s) (JValue.string (s.data.flatMap escapeChar) s.data) := by
  intro fuel rest hf _
  obtain ⟨f, rfl⟩ : ∃ f, fuel = f + 1 := ⟨fuel - 1, by omega⟩
  simp only [marshalString, List.cons_append, List.append_assoc, List.singleton_append, List.nil_append]
  rw [parse_value_cons f _ _ (by decide), if_pos rfl,
    scanString_escape s.data rest _ (by
      have := escape_length s.data
      simp only [List.length_append, List.length_cons]
      omega)]

/-- The text `null` is read as null. -/
theorem Reads_null : Reads 1 ['n', 'u', 'l', 'l'] JValue.null := by
  intro fuel rest hf _
  obtain ⟨f, rfl⟩ : ∃ f, fuel = f + 1 := ⟨fuel - 1, by omega⟩
  simp only [List.cons_append, List.nil_append]
  rw [parse_value_cons f _ _ (by decide)]
  simp

/-- A formatted integer is read as the number with that literal. -/
theorem Reads_int (i : Int) : Reads 1 (formatInt i) (JValue.number (formatInt i)) := by
  intro fuel rest hf hrest
  obtain ⟨f, rfl⟩ : ∃ f, fuel = f + 1 := ⟨fuel - 1, by omega⟩
  have hscan := scanNumber_formatInt i rest hrest
  have hne : formatInt i ≠ [] := by
    unfold formatInt
    split
    · simp
    · exact toDigits_ne_nil _
  have hhead : ∀ c ∈ formatInt i, c = '-' ∨ isDigit c = true := by
    intro c hc
    unfold formatInt at hc
    have hall := toDigits_all i.natAbs
    rw [List.all_eq_true] at hall
    split at hc
    · rcases List.mem_cons.mp hc with h | h
      · exact Or.inl h
      · exact Or.inr (hall c h)
    · exact Or.inr (hall c hc)
  cases hf : formatInt i with
  | nil => exact absurd hf hne
  | cons c cs =>
    rw [hf] at hscan hhead
    have hc := hhead c (List.mem_cons_self _ _)
    have hfacts : isSpace c = false ∧ c ≠ '"' ∧ c ≠ '[' ∧ c ≠ '\x7b' ∧ c ≠ 'n' ∧ c ≠ 't' ∧ c ≠ 'f' := by
      rcases hc with rfl | hd
      · decide
      · have := isDigit_toNat c hd
        refine ⟨?_, ?_, ?_, ?_, ?_, ?_, ?_⟩
        · simp only [isSpace, Bool.or_eq_false_iff, decide_eq_false_iff_not]
          refine ⟨⟨⟨?_, ?_⟩, ?_⟩, ?_⟩ <;> (intro h; subst h; revert this; decide)
        all_goals (intro h; subst h; revert this; decide)
    obtain ⟨h1, h2, h3, h4, h5, h6, h7⟩ := hfacts
    rw [List.cons_append, parse_value_cons f _ _ h1, if_neg h2, if_neg h3, if_neg h4, if_neg h5,
      if_neg h6, if_neg h7]
    rw [List.cons_append] at hscan
    rw [hscan]

/-- The members of an object, each a key, the text of its value and the value
the text is read as. -/
theorem parse_members (n : Nat) :
    ∀ (ms : List (List Char × List Char × JValue)) (m : List Char × List Char × JValue)
      (fuel : Nat) (rest : List Char),
      (∀ x ∈ m :: ms, (∀ c ∈ x.1, Plain c) ∧ Reads n x.2.1 x.2.2) →
      n + (m :: ms).length ≤ fuel →
      parse fuel Goal.members
          ((objectText ((m :: ms).map (fun x => (x.1, x.2.1)))).tail ++ rest)
        = some (Parsed.members ((m :: ms).map (fun x => (x.1, x.2.2))), rest) := by
  intro ms
  induction ms with
  | nil =>
    intro m fuel rest hm hf
    obtain ⟨f, rfl⟩ : ∃ f, fuel = f + 1 := ⟨fuel - 1, by simp at hf; omega⟩
    obtain ⟨hk, hv⟩ := hm m (List.mem_cons_self _ _)
    simp only [List.map_cons, List.map_nil, objectText, List.tail_cons, List.cons_append,
      List.append_assoc, List.singleton_append, List.nil_append]
    rw [parse_members_cons, scanString_plain_text m.1 _ hk _ (by simp)]
    simp only [skipSpace_cons ':' _ (by decide), if_true]
    have hd : Delimited ('\x7d' :: rest) := by
      intro c cs h; cases h; right; rfl
    rw [hv f ('\x7d' :: rest) (by simp at hf; omega) hd]
    simp only [skipSpace_cons '\x7d' _ (by decide)]
    rw [if_neg (by decide)]
    simp only [if_true]
  | cons m2 ms ih =>
    intro m fuel rest hm hf
    obtain ⟨f, rfl⟩ : ∃ f, fuel = f + 1 := ⟨fuel - 1, by simp at hf; omega⟩
    obtain ⟨hk, hv⟩ := hm m (List.mem_cons_self _ _)
    have hrec := ih m2 f rest (fun x hx => hm x (List.mem_cons_of_mem _ hx))
      (by simp at hf ⊢; omega)
    simp only [List.map_cons, objectText, List.tail_cons, List.cons_append,
      List.append_assoc, List.singleton_append, List.nil_append] at hrec ⊢
    rw [parse_members_cons, scanString_plain_text m.1 _ hk _ (by simp)]
    simp only [skipSpace_cons ':' _ (by decide), if_true]
    have hd : ∀ more, Delimited (',' :: more) := by
      intro more c cs h; cases h; left; rfl
    rw [hv f _ (by simp at hf; omega) (hd _)]
    simp only [skipSpace_cons ',' _ (by decide), if_true]
    rw [hrec]

/-- An object is read as the object of the values its members are read as. -/
theorem Reads_object (n : Nat) (ms : List (List Char × List Char × JValue))
    (hm : ∀ x ∈ ms, (∀ c ∈ x.1, Plain c) ∧ Reads n x.2.1 x.2.2) :
    Reads (n + ms.length + 1) (objectText (ms.map (fun x => (x.1, x.2.1))))
      (JValue.object (ms.map (fun x => (x.1, x.2.2)))) := by
  intro fuel rest hf _
  obtain ⟨f, rfl⟩ : ∃ f, fuel = f + 1 := ⟨fuel - 1, by omega⟩
  cases ms with
  | nil =>
    simp only [List.map_nil, objectText, List.cons_append, List.nil_append]
    rw [parse_value_cons f _ _ (by decide), if_neg (by decide), if_neg (by decide), if_pos rfl]
    simp only [skipSpace_cons '\x7d' _ (by decide), if_true]
  | cons m ms =>
    have hmem := parse_members n ms m f rest hm (by simp at hf ⊢; omega)
    have hshape : ∃ t, objectText ((m :: ms).map (fun x => (x.1, x.2.1))) = '\x7b' :: '"' :: t := by
      cases ms with
      | nil => exact ⟨_, rfl⟩
      | cons m2 ms => exact ⟨_, rfl⟩
    obtain ⟨t, ht⟩ := hshape
    rw [ht] at hmem ⊢
    simp only [List.tail_cons, List.cons_append] at hmem ⊢
    rw [parse_value_cons f _ _ (by decide), if_neg (by decide), if_neg (by decide), if_pos rfl]
    simp only [skipSpace_cons '"' _ (by decide)]
    rw [if_neg (by decide), hmem]

/-! ### Fields of a trace -/

/-- More fuel reads the same value. -/
theorem Reads_mono {n m : Nat} {text : List Char} {v : JValue} (h : Reads n text v)
    (hnm : n ≤ m) : Reads m text v :=
  fun fuel rest hf hd => h fuel rest (le_trans hnm hf) hd

/-- A character from `,` (44) up to `Z` (90) is plain. -/
theorem Plain_of_range (c : Char) (h : 43 ≤ c.toNat ∧ c.toNat ≤ 90) : Plain c := by
  refine ⟨?_, ?_, by omega⟩
  · rintro rfl
    revert h
    decide
  · rintro rfl
    revert h
    decide

/-- A decimal digit is plain. -/
theorem Plain_of_isDigit (c : Char) (h : isDigit c = true) : Plain c := by
  have := isDigit_toNat c h
  exact Plain_of_range c (by omega)

/-- The digits of a fixed-width field are plain. -/
theorem digits_plain (k n : Nat) : ∀ c ∈ digits k n, Plain c := fun c hc =>
  Plain_of_isDigit c (List.all_eq_true.mp (digits_all k n) c hc)

/-- The decimal digits of a number are plain. -/
theorem toDigits_plain (n : Nat) : ∀ c ∈ Nat.toDigits 10 n, Plain c := fun c hc =>
  Plain_of_isDigit c (List.all_eq_true.mp (toDigits_all n) c hc)

/-- The text of `appendInt` is plain. -/
theorem appendInt_plain (x : Int) (w : Nat) : ∀ c ∈ appendInt x w, Plain c := by
  intro c hc
  have hbody : ∀ c ∈ List.replicate (w - (natDigits x.natAbs).length) '0' ++ natDigits x.natAbs,
      Plain c := by
    intro c hc
    rcases List.mem_append.mp hc with h | h
    · rw [(List.mem_replicate.mp h).2]
      exact Plain_of_range _ (by decide)
    · exact toDigits_plain _ c h
  unfold appendInt at hc
  simp only at hc
  by_cases hx : x < 0
  · rw [if_pos hx] at hc
    rcases List.mem_cons.mp hc with h | h
    · rw [h]; exact Plain_of_range _ (by decide)
    · exact hbody c h
  · rw [if_neg hx] at hc
    exact hbody c hc

/-- The fraction of a second is plain. -/
theorem formatNano_plain (nsec : Nat) : ∀ c ∈ formatNano nsec, Plain c := by
  intro c hc
  unfold formatNano at hc
  simp only at hc
  split_ifs at hc with h
  · cases hc
  · rcases List.mem_cons.mp hc with h1 | h1
    · rw [h1]; exact Plain_of_range _ (by decide)
    · have h2 := List.mem_reverse.mp h1
      have h3 := (List.dropWhile_sublist _).subset h2
      exact digits_plain 9 nsec c (List.mem_reverse.mp h3)

/-- The zone is plain. -/
theorem formatZone_plain (offset : Int) : ∀ c ∈ formatZone offset, Plain c := by
  intro c hc
  unfold formatZone at hc
  simp only at hc
  by_cases h0 : offset = 0
  · rw [if_pos h0] at hc
    rw [List.mem_singleton.mp hc]
    exact Plain_of_range _ (by decide)
  · rw [if_neg h0] at hc
    rcases List.mem_cons.mp hc with h | h
    · rw [h]
      split_ifs
      · exact Plain_of_range _ (by decide)
      · exact Plain_of_range _ (by decide)
    · rcases List.mem_append.mp h with h | h
      · exact digits_plain _ _ c h
      · rcases List.mem_cons.mp h with h | h
        · rw [h]; exact Plain_of_range _ (by decide)
        · exact digits_plain _ _ c h

/-- The RFC3339Nano text of a time is plain: a JSON string holds it as it is. -/
theorem FormatRFC3339Nano_plain (t : Time) : ∀ c ∈ t.FormatRFC3339Nano.data, Plain c := by
  intro c hc
  unfold Time.FormatRFC3339Nano at hc
  simp only at hc
  rcases hciv : civilFromDays ((t.sec + t.offset) / 86400) with ⟨y, m, d⟩
  rw [hciv] at hc
  simp only [List.mem_append, List.mem_cons, or_assoc] at hc
  have hT : Plain 'T' := Plain_of_range _ (by decide)
  have hD : Plain '-' := Plain_of_range _ (by decide)
  have hC : Plain ':' := Plain_of_range _ (by decide)
  rcases hc with h | h | h | h | h | h | h | h | h | h | h | h | h
  · exact appendInt_plain _ _ c h
  · rw [h]; exact hD
  · exact digits_plain _ _ c h
  · rw [h]; exact hD
  · exact digits_plain _ _ c h
  · rw [h]; exact hT
  · exact digits_plain _ _ c h
  · rw [h]; exact hC
  · exact digits_plain _ _ c h
  · rw [h]; exact hC
  · exact digits_plain _ _ c h
  · exact formatNano_plain _ c h
  · exact formatZone_plain _ c h

/-- What `marshalTime` returns without error: the quoted text of a time whose
year and zone hour are in range. -/
theorem marshalTime_ok (t : Time) (text : List Char) (h : marshalTime t = Except.ok text) :
    text = '"' :: t.FormatRFC3339Nano.data ++ ['"'] ∧ 0 ≤ t.Year ∧ t.Year < 10000 ∧
      (Int.tdiv t.offset 60).natAbs / 60 < 24 := by
  unfold marshalTime at h
  by_cases h1 : t.Year < 0 ∨ t.Year ≥ 10000
  · rw [if_pos h1] at h; cases h
  · rw [if_neg h1] at h
    by_cases h2 : (Int.tdiv t.offset 60).natAbs / 60 ≥ 24
    · rw [if_pos h2] at h; cases h
    · rw [if_neg h2] at h
      injection h with h
      exact ⟨h.symm, by omega, by omega, by omega⟩

/-- A marshalled time is read as a string whose raw text decodes to the time. -/
theorem Reads_time (t : Time) (text : List Char)
    (h : marshalTime t = Except.ok text) (hwf : t.WellFormed) (hz : t.WholeMinuteZone) :
    ∃ v, Reads 1 text v ∧ ∀ old, decodeTime v old = (t, none) := by
  obtain ⟨htext, hy0, hy1, hr⟩ := marshalTime_ok t text h
  refine ⟨JValue.string t.FormatRFC3339Nano.data t.FormatRFC3339Nano.data, ?_, ?_⟩
  · rw [htext]
    exact Reads_plain _ (FormatRFC3339Nano_plain t)
  · intro old
    have hk : t.offset = 60 * (t.offset / 60) := by
      unfold Time.WholeMinuteZone at hz
      omega
    simp only [decodeTime, parseRFC3339_format t hwf hy0 hy1 _ hk hr]

/-- A marshalled string is read as a value that decodes to the string. -/
theorem Reads_decodeString (s : String) :
    ∃ v, Reads 1 (marshalString s) v ∧ ∀ old, decodeString v old = (s, none) :=
  ⟨_, Reads_string s, fun _ => rfl⟩

/-- A marshalled `int` is read as a value that decodes to it. -/
theorem Reads_decodeInt (i : Int) (h0 : -(2 ^ 63) ≤ i) (h1 : i < 2 ^ 63) :
    ∃ v, Reads 1 (formatInt i) v ∧ ∀ old, decodeInt v old = (i, none) := by
  refine ⟨_, Reads_int i, fun old => ?_⟩
  simp only [decodeInt, parseInt_formatInt i h0 h1]

/-- The marshalled field `Bytes` is read as a value that decodes to the
pointer, unless it points to a nil slice. -/
theorem Reads_decodeBytes (p : Option Slice) (hp : SliceNotNil p) :
    ∃ v, Reads 1 (marshalBytes p) v ∧ ∀ old, decodeBytes v old = (p, none) := by
  rcases p with _ | _ | b
  · exact ⟨JValue.null, Reads_null, fun _ => rfl⟩
  · exact absurd rfl hp
  · refine ⟨JValue.string (base64Encode b) (base64Encode b), ?_, ?_⟩
    · exact Reads_plain _ (fun c hc => by
        have := base64Encode_plain b c hc
        exact ⟨this.2.2.1, this.2.2.2.1, this.2.2.2.2⟩)
    · intro old
      simp only [decodeBytes, base64Decode_encode]

/-- Letters are plain: the characters of the field names. -/
theorem key_plain (k : List Char)
    (h : k.all (fun c => decide (65 ≤ c.toNat ∧ c.toNat ≤ 90) ||
      decide (97 ≤ c.toNat ∧ c.toNat ≤ 122)) = true) : ∀ c ∈ k, Plain c := by
  intro c hc
  have h1 := List.all_eq_true.mp h c hc
  simp only [Bool.or_eq_true, decide_eq_true_eq] at h1
  rcases h1 with h1 | h1
  · exact Plain_of_range c (by omega)
  · refine ⟨?_, ?_, by omega⟩
    · rintro rfl
      revert h1
      decide
    · rintro rfl
      revert h1
      decide

/-- A marshalled capture is read as a value that decodes to the capture, unless
its `Bytes` points to a nil slice. -/
theorem Reads_decodeCapture (p : Option (Option Slice))
    (hp : ∀ b, p = some b → SliceNotNil b) :
    ∃ v, Reads 3 (marshalCapture p) v ∧ ∀ old, decodeCapture v old = (p, none) := by
  rcases p with _ | b
  · exact ⟨JValue.null, Reads_mono Reads_null (by omega), fun _ => rfl⟩
  · obtain ⟨v, hv, hdec⟩ := Reads_decodeBytes b (hp b rfl)
    refine ⟨JValue.object [("Bytes".data, v)], ?_, ?_⟩
    · have := Reads_object 1 [("Bytes".data, marshalBytes b, v)] (by
        intro x hx
        rw [List.mem_singleton.mp hx]
        exact ⟨key_plain "Bytes".data (by decide), hv⟩)
      exact this
    · intro old
      have hkey : keyIs "Bytes".data "Bytes" = true := by decide
      simp only [decodeCapture, decodeCaptureMembers, hkey, if_true, hdec]
      rfl

/-! ### The trace -/

/-- A member named `ID` sets the field `ID`. -/
theorem decodeMember_ID (v : JValue) (d : Decoding TrafficTrace) :
    decodeMember ['I', 'D'] v d =
      ({ d.1 with ID := (decodeString v d.1.ID).1 },
        d.2.orElse (fun _ => (decodeString v d.1.ID).2)) := by
  rfl

/-- A member named `Start` sets the field `Start`. -/
theorem decodeMember_Start (v : JValue) (d : Decoding TrafficTrace) :
    decodeMember ['S', 't', 'a', 'r', 't'] v d =
      ({ d.1 with Start := (decodeTime v d.1.Start).1 },
        d.2.orElse (fun _ => (decodeTime v d.1.Start).2)) := by
  rfl

/-- A member named `End` sets the field `End`. -/
theorem decodeMember_End (v : JValue) (d : Decoding TrafficTrace) :
    decodeMember ['E', 'n', 'd'] v d =
      ({ d.1 with End := (decodeTime v d.1.End).1 },
        d.2.orElse (fun _ => (decodeTime v d.1.End).2)) := by
  rfl

/-- A member named `HttpStatus` sets the field `HttpStatus`. -/
theorem decodeMember_HttpStatus (v : JValue) (d : Decoding TrafficTrace) :
    decodeMember ['H', 't', 't', 'p', 'S', 't', 'a', 't', 'u', 's'] v d =
      ({ d.1 with HttpStatus := (decodeInt v d.1.HttpStatus).1 },
        d.2.orElse (fun _ => (decodeInt v d.1.HttpStatus).2)) := by
  rfl

/-- A member named `HttpMethod` sets the field `HttpMethod`. -/
theorem decodeMember_HttpMethod (v : JValue) (d : Decoding TrafficTrace) :
    decodeMember ['H', 't', 't', 'p', 'M', 'e', 't', 'h', 'o', 'd'] v d =
      ({ d.1 with HttpMethod := (decodeString v d.1.HttpMethod).1 },
        d.2.orElse (fun _ => (decodeString v d.1.HttpMethod).2)) := by
  rfl

/-- A member named `URI` sets the field `URI`. -/
theorem decodeMember_URI (v : JValue) (d : Decoding TrafficTrace) :
    decodeMember ['U', 'R', 'I'] v d =
      ({ d.1 with URI := (decodeString v d.1.URI).1 },
        d.2.orElse (fun _ => (decodeString v d.1.URI).2)) := by
  rfl

/-- A member named `Length` sets the field `Length`. -/
theorem decodeMember_Length (v : JValue) (d : Decoding TrafficTrace) :
    decodeMember ['L', 'e', 'n', 'g', 't', 'h'] v d =
      ({ d.1 with Length := (decodeInt v d.1.Length).1 },
        d.2.orElse (fun _ => (decodeInt v d.1.Length).2)) := by
  rfl

/-- A member named `Ingress` sets the field `Ingress`. -/
theorem decodeMember_Ingress (v : JValue) (d : Decoding TrafficTrace) :
    decodeMember ['I', 'n', 'g', 'r', 'e', 's', 's'] v d =
      ({ d.1 with Ingress :=
          (decodeCapture v (d.1.Ingress.map (fun i => i.Bytes))).1.map (fun b => { Bytes := b }) },
        d.2.orElse (fun _ => (decodeCapture v (d.1.Ingress.map (fun i => i.Bytes))).2)) := by
  rfl

/-- A member named `Egress` sets the field `Egress`. -/
theorem decodeMember_Egress (v : JValue) (d : Decoding TrafficTrace) :
    decodeMember ['E', 'g', 'r', 'e', 's', 's'] v d =
      ({ d.1 with Egress :=
          (decodeCapture v (d.1.Egress.map (fun e => e.Bytes))).1.map (fun b => { Bytes := b }) },
        d.2.orElse (fun _ => (decodeCapture v (d.1.Egress.map (fun e => e.Bytes))).2)) := by
  rfl

/-- What `marshalText` returns without error. -/
theorem marshalText_ok (t : TrafficTrace) (text : List Char)
    (h : marshalText t = Except.ok text) :
    ∃ start stop, marshalTime t.Start = Except.ok start ∧ marshalTime t.End = Except.ok stop ∧
      text = objectText
        [("ID".data, marshalString t.ID),
         ("Start".data, start),
         ("End".data, stop),
         ("HttpStatus".data, formatInt t.HttpStatus),
         ("HttpMethod".data, marshalString t.HttpMethod),
         ("URI".data, marshalString t.URI),
         ("Length".data, formatInt t.Length),
         ("Ingress".data, marshalCapture (t.Ingress.map (fun i => i.Bytes))),
         ("Egress".data, marshalCapture (t.Egress.map (fun e => e.Bytes)))] := by
  unfold marshalText at h
  rcases hs : marshalTime t.Start with e | start
  · rw [hs] at h; cases h
  · rcases he : marshalTime t.End with e | stop
    · rw [hs, he] at h; cases h
    · rw [hs, he] at h
      injection h with h
      exact ⟨start, stop, rfl, rfl, h.symm⟩

/-- What `goMarshal` returns without error: the UTF-8 bytes of the text. -/
theorem goMarshal_ok (t : TrafficTrace) (encoded : Bytes)
    (h : goMarshal t = Except.ok encoded) :
    ∃ text, marshalText t = Except.ok text ∧ encoded = utf8Encode text := by
  unfold goMarshal at h
  rcases ht : marshalText t with e | text
  · rw [ht] at h; cases h
  · rw [ht] at h
    injection h with h
    exact ⟨text, rfl, h.symm⟩

/-- Unmarshalling what `json.Marshal` wrote for a trace gives the trace back
and no error, whatever the trace decoded into held, for a trace whose fields
are values of their Go types, whose times have zones of whole minutes, and
whose captures do not point to a nil slice. -/
theorem goUnmarshal_goMarshal (r old : TrafficTrace) (encoded : Bytes)
    (h : goMarshal r = Except.ok encoded) (hwf : r.WellFormed)
    (hzs : r.Start.WholeMinuteZone) (hze : r.End.WholeMinuteZone)
    (hin : ∀ i, r.Ingress = some i → SliceNotNil i.Bytes)
    (heg : ∀ e, r.Egress = some e → SliceNotNil e.Bytes) :
    goUnmarshal encoded old = (r, none) := by
  obtain ⟨text, htext, rfl⟩ := goMarshal_ok r encoded h
  obtain ⟨start, stop, hstart, hstop, rfl⟩ := marshalText_ok r text htext
  obtain ⟨hw1, hw2, hw3, hw4, hw5, hw6⟩ := hwf
  obtain ⟨v1, hr1, hd1⟩ := Reads_decodeString r.ID
  obtain ⟨v2, hr2, hd2⟩ := Reads_time r.Start start hstart hw1 hzs
  obtain ⟨v3, hr3, hd3⟩ := Reads_time r.End stop hstop hw2 hze
  obtain ⟨v4, hr4, hd4⟩ := Reads_decodeInt r.HttpStatus hw3 hw4
  obtain ⟨v5, hr5, hd5⟩ := Reads_decodeString r.HttpMethod
  obtain ⟨v6, hr6, hd6⟩ := Reads_decodeString r.URI
  obtain ⟨v7, hr7, hd7⟩ := Reads_decodeInt r.Length hw5 hw6
  obtain ⟨v8, hr8, hd8⟩ := Reads_decodeCapture (r.Ingress.map (fun i => i.Bytes)) (by
    intro b hb
    rcases hi : r.Ingress with _ | i
    · rw [hi] at hb; cases hb
    · rw [hi] at hb
      injection hb with hb
      rw [← hb]
      exact hin i hi)
  obtain ⟨v9, hr9, hd9⟩ := Reads_decodeCapture (r.Egress.map (fun e => e.Bytes)) (by
    intro b hb
    rcases hi : r.Egress with _ | i
    · rw [hi] at hb; cases hb
    · rw [hi] at hb
      injection hb with hb
      rw [← hb]
      exact heg i hi)
  have hobj := Reads_object 3
    [("ID".data, marshalString r.ID, v1),
     ("Start".data, start, v2),
     ("End".data, stop, v3),
     ("HttpStatus".data, formatInt r.HttpStatus, v4),
     ("HttpMethod".data, marshalString r.HttpMethod, v5),
     ("URI".data, marshalString r.URI, v6),
     ("Length".data, formatInt r.Length, v7),
     ("Ingress".data, marshalCapture (r.Ingress.map (fun i => i.Bytes)), v8),
     ("Egress".data, marshalCapture (r.Egress.map (fun e => e.Bytes)), v9)] (by
    intro x hx
    simp only [List.mem_cons, List.mem_nil_iff, or_false] at hx
    rcases hx with rfl | rfl | rfl | rfl | rfl | rfl | rfl | rfl | rfl
    · exact ⟨key_plain "ID".data (by decide), Reads_mono hr1 (by omega)⟩
    · exact ⟨key_plain "Start".data (by decide), Reads_mono hr2 (by omega)⟩
    · exact ⟨key_plain "End".data (by decide), Reads_mono hr3 (by omega)⟩
    · exact ⟨key_plain "HttpStatus".data (by decide), Reads_mono hr4 (by omega)⟩
    · exact ⟨key_plain "HttpMethod".data (by decide), Reads_mono hr5 (by omega)⟩
    · exact ⟨key_plain "URI".data (by decide), Reads_mono hr6 (by omega)⟩
    · exact ⟨key_plain "Length".data (by decide), Reads_mono hr7 (by omega)⟩
    · exact ⟨key_plain "Ingress".data (by decide), hr8⟩
    · exact ⟨key_plain "Egress".data (by decide), hr9⟩)
  simp only [List.map_cons, List.map_nil, List.length_cons, List.length_nil] at hobj
  obtain ⟨text, htx⟩ : ∃ text, text = objectText
        [("ID".data, marshalString r.ID),
         ("Start".data, start),
         ("End".data, stop),
         ("HttpStatus".data, formatInt r.HttpStatus),
         ("HttpMethod".data, marshalString r.HttpMethod),
         ("URI".data, marshalString r.URI),
         ("Length".data, formatInt r.Length),
         ("Ingress".data, marshalCapture (r.Ingress.map (fun i => i.Bytes))),
         ("Egress".data, marshalCapture (r.Egress.map (fun e => e.Bytes)))] := ⟨_, rfl⟩
  rw [← htx] at hobj ⊢
  have hlen : 6 ≤ text.length := by
    rw [htx]
    simp only [objectText, List.length_cons, List.length_append]
    omega
  have hparse := hobj (2 * text.length + 2) [] (by omega) (by intro c cs hc; cases hc)
  rw [List.append_nil] at hparse
  unfold goUnmarshal
  rw [utf8Decode_encode]
  unfold parseJSON
  rw [hparse]
  simp only [skipSpace, List.isEmpty, if_true]
  simp only [decodeMembers, decodeMember_ID, decodeMember_Start, decodeMember_End,
    decodeMember_HttpStatus, decodeMember_HttpMethod, decodeMember_URI, decodeMember_Length,
    decodeMember_Ingress, decodeMember_Egress, hd1, hd2, hd3, hd4, hd5, hd6, hd7, hd8, hd9,
    Option.orElse]
  rcases r with ⟨id, st, en, status, method, uri, len, _ | ⟨ib⟩, _ | ⟨eb⟩⟩ <;> rfl

/-! ### StoreTrace -/

/-- What `StoreTrace` leaves in the bucket when the trace encodes and bolt
accepts the key and the value: the bucket with the encoding set under the ID. -/
theorem StoreTrace_db (json : JSON) (storage : TrafficStorage) (r : TrafficTrace)
    (log : List Printf) (encoded : Bytes)
    (henc : json.Marshal r = Except.ok encoded)
    (hkey : 0 < (goBytes r.ID).length) (hkeymax : (goBytes r.ID).length ≤ MaxKeySize)
    (hval : encoded.length ≤ MaxValueSize) :
    (storage.StoreTrace json r log).1.db = Bucket.insert storage.db (goBytes r.ID) encoded := by
  have hput : storage.db.Put (goBytes r.ID) encoded
      = (Bucket.insert storage.db (goBytes r.ID) encoded, none) := by
    unfold Bucket.Put
    rw [if_neg (by omega), if_neg (by omega), if_neg (by omega)]
  simp [TrafficStorage.StoreTrace, henc, hput]

set_option maxRecDepth 100000 in
/-- C10, as stated, fails in three ways, each with `encoding/json` as the codec
and each on a trace that encodes.  (1) The zero trace has a blank ID: bolt
refuses the blank key and the store holds nothing under it.  (2) A trace whose
ingress `Bytes` points to a nil slice is stored, and its value decodes to a
trace whose ingress `Bytes` is a nil pointer.  (3) A trace whose start time is
in a zone 90 seconds east of UTC is stored, and its value decodes to a start
time 30 seconds later in a zone 60 seconds east. -/
theorem StoreTrace_not_read_back :
    ((goJSON.Marshal TrafficTrace.zero).toOption.isSome = true ∧
      (emptyStorage.StoreTrace goJSON TrafficTrace.zero []).1.db.Get
        (goBytes TrafficTrace.zero.ID) = none) ∧
    ((goJSON.Marshal nilSliceTrace).toOption.isSome = true ∧
      nilSliceTrace.Ingress = some { Bytes := some none } ∧
      ((emptyStorage.StoreTrace goJSON nilSliceTrace []).1.db.Get (goBytes nilSliceTrace.ID)).map
          (fun value => goJSON.Unmarshal value TrafficTrace.zero)
        = some ({ nilSliceTrace with Ingress := some { Bytes := none } }, none)) ∧
    ((goJSON.Marshal oddZoneTrace).toOption.isSome = true ∧
      oddZoneTrace.Start = { sec := 0, nsec := 0, offset := 90 } ∧
      ((emptyStorage.StoreTrace goJSON oddZoneTrace []).1.db.Get (goBytes oddZoneTrace.ID)).map
          (fun value => goJSON.Unmarshal value TrafficTrace.zero)
        = some ({ oddZoneTrace with Start := { sec := 30, nsec := 0, offset := 60 } }, none)) := by
  decide

/-- C10, amended: with `encoding/json` as the codec, for every store and every
trace `r` that encodes, whose ID is a key bolt accepts (1 to 32768 bytes) with
an encoding bolt accepts, whose fields are values of their Go types, whose
start and end times are in zones a whole number of minutes from UTC, and whose
ingress and egress, when present, do not point to a nil slice: after
`StoreTrace(r)` the store holds under key `r.ID` the encoding of `r`, and
`json.Unmarshal` of that value into a zero trace returns no error and the trace
`r`, equal in all fields (a time being its instant and the offset of its zone);
every other key holds what it held, and an ordered bucket stays ordered. -/
theorem StoreTrace_then_read (storage : TrafficStorage) (r : TrafficTrace)
    (log : List Printf) (encoded : Bytes)
    (henc : goJSON.Marshal r = Except.ok encoded)
    (hkey : 0 < (goBytes r.ID).length) (hkeymax : (goBytes r.ID).length ≤ MaxKeySize)
    (hval : encoded.length ≤ MaxValueSize)
    (hwf : r.WellFormed)
    (hstart : r.Start.WholeMinuteZone) (hend : r.End.WholeMinuteZone)
    (hin : ∀ i, r.Ingress = some i → SliceNotNil i.Bytes)
    (heg : ∀ e, r.Egress = some e → SliceNotNil e.Bytes) :
    ∃ value, (storage.StoreTrace goJSON r log).1.db.Get (goBytes r.ID) = some value ∧
      value = encoded ∧
      goJSON.Unmarshal value TrafficTrace.zero = (r, none) ∧
      (∀ other, other ≠ goBytes r.ID →
        (storage.StoreTrace goJSON r log).1.db.Get other = storage.db.Get other) ∧
      (storage.db.Ordered → (storage.StoreTrace goJSON r log).1.db.Ordered) := by
  have hst := StoreTrace_db goJSON storage r log encoded henc hkey hkeymax hval
  refine ⟨encoded, ?_, rfl, ?_, ?_, ?_⟩
  · rw [hst]; exact Bucket.Get_insert_same _ _ _
  · exact goUnmarshal_goMarshal r TrafficTrace.zero encoded henc hwf hstart hend hin heg
  · intro other ho
    rw [hst]; exact Bucket.Get_insert_other _ _ _ _ ho
  · intro ho
    rw [hst]; exact Bucket.insert_Ordered _ _ _ ho

set_option maxRecDepth 100000 in
/-- C10, amended, for `sampleTrace` stored into a store of two pairs that holds
a stale value under its ID: the trace encodes to `sampleEncoding`, the store
did not hold that value, and after `StoreTrace` it does, the value decodes to
`sampleTrace`, and the older key holds what it held. -/
theorem StoreTrace_then_read_witness :
    goJSON.Marshal sampleTrace = Except.ok sampleEncoding ∧
    staleStorage.db.Get (goBytes sampleTrace.ID) = some [0] ∧
    ∃ value, (staleStorage.StoreTrace goJSON sampleTrace []).1.db.Get (goBytes sampleTrace.ID)
        = some value ∧
      value = sampleEncoding ∧
      goJSON.Unmarshal value TrafficTrace.zero = (sampleTrace, none) ∧
      (∀ other, other ≠ goBytes sampleTrace.ID →
        (staleStorage.StoreTrace goJSON sampleTrace []).1.db.Get other
          = staleStorage.db.Get other) ∧
      (staleStorage.db.Ordered → (staleStorage.StoreTrace goJSON sampleTrace []).1.db.Ordered) :=
  ⟨rfl, by decide,
    StoreTrace_then_read staleStorage sampleTrace [] sampleEncoding rfl (by decide)
      (by decide) (by decide) (by decide) (by decide) (by decide) (by decide) (by decide)⟩

end SmartProxy
